import Mathlib

/-!
# Off-chain matching engine: order book, maker/taker classification, taker walk

A shallow embedding of `src/engine/orderBook.js` and of the validation gate `submitOrder` of
`src/api/ordersController.js`.

* Prices and sizes are the `uint128` fields of the signed order (`types.Order` in
  `src/api/ordersController.js`); the engine reads them with `BigInt(...)`, so they are
  modelled as natural numbers with exact arithmetic.  Every subtraction the engine performs
  on sizes subtracts `fillSize`, which is the smaller of the two operands, so truncated
  subtraction on `Nat` coincides with the `BigInt` subtraction.
* The sort comparators return `Number(BigInt(..) - BigInt(..))`; the conversion keeps the
  sign of the difference, so the comparator is modelled by the integer difference itself.
* `Array.prototype.sort` is a stable sort; it is modelled by a stable insertion sort.
* `console.log`, `broadcast`, `logTrade` and the `timestamp` field of a trade (wall clock)
  do not influence books, trades or outcomes and are left out of the model.
* The settlement of a pairing is simulated in the source (`const blockchainSuccess = true`);
  the loop body branches on it, so the walk carries the flag and `handleTakerOrder` passes
  the constant `true`, the only value the program runs with.
* In `submitOrder` the signature check of `ethers` and the clock `Date.now()` are parameters.
  The `uint64` field `expiry` reaches `submitOrder` as a JSON number or as a string of digits
  (the signature check takes both), and `order.expiry !== 0` tells the two apart, so the
  request records which one was sent.
-/

namespace OffchainEngine

/-! ## Data model -/

/-- The signed order, with the fields of the EIP-712 `Order` type. -/
structure Order where
  maker : String
  marketId : String
  baseSize : Nat
  priceX18 : Nat
  expiry : Nat
  nonce : Nat
  leverageBps : Nat
  minFillBps : Nat
  flags : Nat
  isLong : Bool
deriving DecidableEq, Repr

/-- The trade record built in `handleTakerOrder` (without the wall-clock `timestamp`). -/
structure Trade where
  marketId : String
  price : Nat
  size : Nat
  taker : String
  maker : String
deriving DecidableEq, Repr

/-- One market's book, `{ bids: [Order], asks: [Order] }`. -/
structure Book where
  bids : List Order
  asks : List Order
deriving DecidableEq, Repr

/-- The object returned by `handleMakerOrder` / `handleTakerOrder`.  The maker path returns
`{ success, message }` with no `trades` property, which is `trades = none` here. -/
structure Outcome where
  success : Bool
  message : String
  trades : Option (List Trade)
deriving DecidableEq, Repr

/-- The module-level `orderBooks` map, `marketId -> book`. -/
abbrev OrderBooks := String → Option Book

/-- The state of `const orderBooks = new Map()`. -/
def emptyBooks : OrderBooks := fun _ => none

/-- The effect of `orderBooks.set(marketId, book)`. -/
def OrderBooks.set (orderBooks : OrderBooks) (marketId : String) (book : Book) : OrderBooks :=
  fun k => if k = marketId then some book else orderBooks k

/-! ## Sorting a side -/

/-- The comparator of the bids sort: `(a, b) => Number(BigInt(b.priceX18) - BigInt(a.priceX18))`. -/
def bidCompare (a b : Order) : Int := (b.priceX18 : Int) - (a.priceX18 : Int)

/-- The comparator of the asks sort: `(a, b) => Number(BigInt(a.priceX18) - BigInt(b.priceX18))`. -/
def askCompare (a b : Order) : Int := (a.priceX18 : Int) - (b.priceX18 : Int)

/-- The element `a` may stay in front of `b` under the comparator: `compare(a, b) <= 0`. -/
def keepsOrder (compare : Order → Order → Int) (a b : Order) : Prop := compare a b ≤ 0

instance (compare : Order → Order → Int) : DecidableRel (keepsOrder compare) :=
  fun a b => inferInstanceAs (Decidable (compare a b ≤ 0))

instance : IsTotal Order (keepsOrder bidCompare) :=
  ⟨fun a b => by unfold keepsOrder bidCompare; omega⟩

instance : IsTrans Order (keepsOrder bidCompare) :=
  ⟨fun a b c => by unfold keepsOrder bidCompare; omega⟩

instance : IsTotal Order (keepsOrder askCompare) :=
  ⟨fun a b => by unfold keepsOrder askCompare; omega⟩

instance : IsTrans Order (keepsOrder askCompare) :=
  ⟨fun a b c => by unfold keepsOrder askCompare; omega⟩

/-- The effect of `side.sort(compare)`: a stable sort, in which `a` ends before `b` when
`compare(a, b) < 0` and elements that compare equal keep their relative order. -/
def arraySort (compare : Order → Order → Int) (side : List Order) : List Order :=
  List.insertionSort (keepsOrder compare) side

/-! ## The engine -/

/-- The function `handleMakerOrder(order, book)`: push on the order's own side, sort that side. -/
def handleMakerOrder (order : Order) (book : Book) : Book × Outcome :=
  let book1 : Book :=
    if order.isLong then
      { book with bids := arraySort bidCompare (book.bids ++ [order]) }
    else
      { book with asks := arraySort askCompare (book.asks ++ [order]) }
  (book1, { success := true, message := "Order placed on book.", trades := none })

/-- The trade record built for a pairing of the taker with `makerOrder` for `fillSize`:
`{ marketId: takerOrder.marketId, price: makerOrder.priceX18, size: fillSize,
taker: takerOrder.maker, maker: makerOrder.maker }`. -/
def mkTrade (takerOrder makerOrder : Order) (fillSize : Nat) : Trade :=
  { marketId := takerOrder.marketId, price := makerOrder.priceX18, size := fillSize,
    taker := takerOrder.maker, maker := makerOrder.maker }

/-- The test `priceCrosses` of the taker walk. -/
def priceCrosses (takerOrder makerOrder : Order) : Bool :=
  if takerOrder.isLong then decide (takerOrder.priceX18 ≥ makerOrder.priceX18)
  else decide (takerOrder.priceX18 ≤ makerOrder.priceX18)

/-- The loop variables of the taker walk. -/
structure WalkState where
  remainingSize : Nat
  bookSide : List Order
  trades : List Trade
deriving DecidableEq, Repr

/-- The `while (remainingSize > 0 && bookSide.length > 0)` loop of `handleTakerOrder`, with the
settlement result `blockchainSuccess` of the loop body as a parameter. -/
def takerWalk (blockchainSuccess : Bool) (takerOrder : Order)
    (remainingSize : Nat) (bookSide : List Order) (trades : List Trade) : WalkState :=
  match bookSide with
  | [] => ⟨remainingSize, [], trades⟩
  | makerOrder :: rest =>
    if 0 < remainingSize then
      if priceCrosses takerOrder makerOrder then
        let makerSize := makerOrder.baseSize
        let fillSize := if remainingSize < makerSize then remainingSize else makerSize
        if blockchainSuccess then
          let trade := mkTrade takerOrder makerOrder fillSize
          if makerSize - fillSize = 0 then
            takerWalk blockchainSuccess takerOrder (remainingSize - fillSize) rest
              (trades ++ [trade])
          else
            takerWalk blockchainSuccess takerOrder (remainingSize - fillSize)
              ({ makerOrder with baseSize := makerSize - fillSize } :: rest) (trades ++ [trade])
        else
          takerWalk blockchainSuccess takerOrder remainingSize rest trades
      else ⟨remainingSize, makerOrder :: rest, trades⟩
    else ⟨remainingSize, makerOrder :: rest, trades⟩
termination_by (bookSide.length, remainingSize)
decreasing_by
  · simp_wf
    exact Prod.Lex.left _ _ (Nat.lt_succ_self _)
  · simp_wf
    rename_i hpos _ hne
    apply Prod.Lex.right
    have hne2 : ¬ (makerOrder.baseSize -
        (if remainingSize < makerOrder.baseSize then remainingSize else makerOrder.baseSize)
          = 0) := hne
    split at hne2 <;> split <;> omega
  · simp_wf
    exact Prod.Lex.left _ _ (Nat.lt_succ_self _)

/-- The constant `const blockchainSuccess = true; // ** SIMULATION **`. -/
def blockchainSuccess : Bool := true

/-- The side the taker walks: `takerOrder.isLong ? book.asks : book.bids`. -/
def oppositeSide (order : Order) (book : Book) : List Order :=
  if order.isLong then book.asks else book.bids

/-- The side an order rests on: `order.isLong ? book.bids : book.asks`. -/
def ownSide (order : Order) (book : Book) : List Order :=
  if order.isLong then book.bids else book.asks

/-- The function `handleTakerOrder(takerOrder, book)`. -/
def handleTakerOrder (takerOrder : Order) (book : Book) : Book × Outcome :=
  let w := takerWalk blockchainSuccess takerOrder takerOrder.baseSize
    (oppositeSide takerOrder book) []
  let book1 : Book :=
    if takerOrder.isLong then { book with asks := w.bookSide }
    else { book with bids := w.bookSide }
  let book2 : Book :=
    if 0 < w.remainingSize then
      (handleMakerOrder { takerOrder with baseSize := w.remainingSize } book1).1
    else book1
  (book2, { success := true, message := "Trade executed.", trades := some w.trades })

/-- Step 2 of `processOrder`: the value of `isTaker`. -/
def isTaker (order : Order) (book : Book) : Bool :=
  if order.isLong then
    match book.asks with
    | [] => false
    | bestAsk :: _ => decide (order.priceX18 ≥ bestAsk.priceX18)
  else
    match book.bids with
    | [] => false
    | bestBid :: _ => decide (order.priceX18 ≤ bestBid.priceX18)

/-- The book `processOrder` works on: the stored one, or a fresh empty one. -/
def bookFor (orderBooks : OrderBooks) (marketId : String) : Book :=
  match orderBooks marketId with
  | some book => book
  | none => { bids := [], asks := [] }

/-- The function `processOrder(order)`, with the `orderBooks` map passed in and out. -/
def processOrder (orderBooks : OrderBooks) (order : Order) : OrderBooks × Outcome :=
  let book := bookFor orderBooks order.marketId
  let r := if isTaker order book then handleTakerOrder order book
           else handleMakerOrder order book
  (orderBooks.set order.marketId r.1, r.2)

/-- A finite sequence of `processOrder` calls; the outcomes are dropped. -/
def processAll (orderBooks : OrderBooks) (orders : List Order) : OrderBooks :=
  orders.foldl (fun bs o => (processOrder bs o).1) orderBooks

/-! ## Vocabulary of the statements and the scenarios of the specification -/

/-- Total size of a list of resting orders. -/
def sizeSum (side : List Order) : Nat := (side.map (fun m => m.baseSize)).sum

/-- Total size of a list of trades. -/
def tradeSizeSum (trades : List Trade) : Nat := (trades.map (fun t => t.size)).sum

/-- The trades of a run of makers that are each filled for their whole size. -/
def fullTrades (t : Order) (pre : List Order) : List Trade :=
  pre.map (fun m => mkTrade t m m.baseSize)

/-- The loop has stopped: nothing left to fill, nothing left to match, or no cross. -/
def WalkDone (t : Order) (rem : Nat) (side : List Order) : Prop :=
  rem = 0 ∨ side = [] ∨ ∃ m rest, side = m :: rest ∧ priceCrosses t m = false

/-- Bids are in non-increasing price order. -/
def BidsSorted (bids : List Order) : Prop :=
  bids.Pairwise (fun a b => a.priceX18 ≥ b.priceX18)

/-- Asks are in non-decreasing price order. -/
def AsksSorted (asks : List Order) : Prop :=
  asks.Pairwise (fun a b => a.priceX18 ≤ b.priceX18)

instance : DecidablePred BidsSorted := fun l => by unfold BidsSorted; infer_instance

instance : DecidablePred AsksSorted := fun l => by unfold AsksSorted; infer_instance

/-- The resting orders of a side at one price, in book order. -/
def atPrice (price : Nat) (side : List Order) : List Order :=
  side.filter (fun m => decide (m.priceX18 = price))

/-- A plain limit order of market `"M"`: no expiry, nonce, leverage or flags. -/
def limitOrder (maker : String) (isLong : Bool) (baseSize priceX18 : Nat) : Order :=
  { maker := maker, marketId := "M", baseSize := baseSize, priceX18 := priceX18, expiry := 0,
    nonce := 0, leverageBps := 0, minFillBps := 0, flags := 0, isLong := isLong }

/-- The books map that holds one book, for market `"M"`. -/
def booksOfM (book : Book) : OrderBooks := emptyBooks.set "M" book

/-- The classification rule in the words of the specification: a buy with a best ask priced at
or below it, or a sell with a best bid priced at or above it. -/
def CrossesBestOpposite (order : Order) (book : Book) : Prop :=
  (order.isLong = true ∧ ∃ bestAsk rest, book.asks = bestAsk :: rest ∧
      order.priceX18 ≥ bestAsk.priceX18) ∨
  (order.isLong = false ∧ ∃ bestBid rest, book.bids = bestBid :: rest ∧
      order.priceX18 ≤ bestBid.priceX18)

/-- The book of a market nobody has traded yet, `{ bids: [], asks: [] }`. -/
def emptyBook : Book := { bids := [], asks := [] }

/-- A sequence of `handleMakerOrder` calls on one book. -/
def insertMakers (book : Book) (orders : List Order) : Book :=
  orders.foldl (fun b o => (handleMakerOrder o b).1) book

/-- The comparator `handleMakerOrder` sorts the side of a buy (`true`) or a sell with. -/
def sideCompare (isLong : Bool) : Order → Order → Int :=
  if isLong then bidCompare else askCompare

/-- The taker walk as `handleTakerOrder` starts it. -/
def walkOf (takerOrder : Order) (book : Book) : WalkState :=
  takerWalk blockchainSuccess takerOrder takerOrder.baseSize (oppositeSide takerOrder book) []

/-- The taker as it rests when `remainingSize` of it is left (`takerOrder.baseSize =
remainingSize.toString()`). -/
def restOf (takerOrder : Order) (remainingSize : Nat) : Order :=
  { takerOrder with baseSize := remainingSize }

/-- The book is not crossed: a side is empty, or the best bid is priced strictly below the
best ask. -/
def Uncrossed (book : Book) : Prop :=
  match book.bids, book.asks with
  | bestBid :: _, bestAsk :: _ => bestBid.priceX18 < bestAsk.priceX18
  | _, _ => True

/-- The invariant of a book that `processOrder` keeps: both sides sorted and every bid priced
strictly below every ask. -/
def BookInv (book : Book) : Prop :=
  BidsSorted book.bids ∧ AsksSorted book.asks ∧
    ∀ b ∈ book.bids, ∀ a ∈ book.asks, b.priceX18 < a.priceX18

/-- The book with the side opposite to `order` replaced, as the walk leaves it. -/
def withOpposite (order : Order) (book : Book) (side : List Order) : Book :=
  if order.isLong then { book with asks := side } else { book with bids := side }

/-- Scenario A, the incoming order: A sells 10 at 100. -/
def sellA : Order := limitOrder "A" false 10 100

/-- Four bids in arrival order: 8 at 100 from X, 1 at 105 from Z, 5 at 100 from Y, 2 at 105
from W. -/
def stackedBids : List Order :=
  [limitOrder "X" true 8 100, limitOrder "Z" true 1 105, limitOrder "Y" true 5 100,
    limitOrder "W" true 2 105]

/-- Scenario C, the books: market `"M"` holds one ask, 5 at 100 from A. -/
def booksC : OrderBooks := booksOfM { bids := [], asks := [limitOrder "A" false 5 100] }

/-- Scenario C, the incoming order: B buys 10 at 100. -/
def buyC : Order := limitOrder "B" true 10 100

/-- Scenario E, the book: bids 8 at 100 from X, then 5 at 100 from Y. -/
def bookE : Book :=
  { bids := [limitOrder "X" true 8 100, limitOrder "Y" true 5 100], asks := [] }

/-- Scenario E, the incoming order: T sells 10 at 100. -/
def sellE : Order := limitOrder "T" false 10 100

/-- A short session: A sells 10 at 100, B buys 4 at 100, C bids 3 at 99. -/
def session : List Order :=
  [limitOrder "A" false 10 100, limitOrder "B" true 4 100, limitOrder "C" true 3 99]

/-- Both sides of the book are in their price order. -/
def BothSorted (book : Book) : Prop := BidsSorted book.bids ∧ AsksSorted book.asks

/-- The order `new` is the order `old` with a size that is not larger: the same resting order,
possibly after a partial fill. -/
def SameButFilled (new old : Order) : Prop :=
  new.baseSize ≤ old.baseSize ∧ { new with baseSize := old.baseSize } = old

/-! ## Scenarios B and D -/

/-- Scenario D, the book: one ask, 10 at 100 from A. -/
def bookD : Book := { bids := [], asks := [limitOrder "A" false 10 100] }

/-- Scenario D, the incoming order: B buys 10 at 100. -/
def buyD : Order := limitOrder "B" true 10 100

/-- Two asks at 100: 10 from A, then 5 from C. -/
def bookTwoAsks : Book :=
  { bids := [], asks := [limitOrder "A" false 10 100, limitOrder "C" false 5 100] }

/-! ## The submission entry point -/

/-- The method `toLowerCase()` on an address string: letter by letter, `A`-`Z` to `a`-`z`. -/
def toLowerCase (s : String) : String := String.mk (s.data.map Char.toLower)

/-- The answer of `submitOrder`: `res.status(..).json(..)`, with body `{ error }` or the
outcome of `processOrder`. -/
structure Response where
  status : Nat
  error : Option String
  result : Option Outcome
deriving DecidableEq, Repr

/-- The JSON body `{ order, signature }` of a request.  The fields of `order` are held by
value; `expirySentAsString` tells whether `order.expiry` is a string of digits (`"0"`) rather
than a number (`0`). -/
structure OrderRequest where
  order : Order
  expirySentAsString : Bool
  signature : String
deriving DecidableEq, Repr

/-- The test `order.expiry !== 0`: strict inequality, so a string is never equal to `0`. -/
def expiryIsNotTheNumberZero (req : OrderRequest) : Bool :=
  req.expirySentAsString || decide (req.order.expiry ≠ 0)

/-- The function `submitOrder(req, res)` of `src/api/ordersController.js`.
`verifyTypedData order signature` stands for `ethers.utils.verifyTypedData(domain, types,
order, signature)`: the recovered signer, or `none` when it throws.  `nowMs` is `Date.now()`;
`Date.now() / 1000 > order.expiry` compares numbers (a string of digits is converted to its
value) and is taken over the rationals, which is what the double division gives for a
millisecond clock below `2^53`. -/
def submitOrder (verifyTypedData : Order → String → Option String) (nowMs : Nat)
    (orderBooks : OrderBooks) (req : OrderRequest) : OrderBooks × Response :=
  match verifyTypedData req.order req.signature with
  | none =>
    (orderBooks, { status := 400, error := some "Signature verification failed", result := none })
  | some signerAddress =>
    if toLowerCase signerAddress ≠ toLowerCase req.order.maker then
      (orderBooks, { status := 401, error := some "Invalid signature", result := none })
    else if req.order.baseSize ≤ 0 then
      (orderBooks, { status := 400, error := some "Order size must be positive", result := none })
    else if expiryIsNotTheNumberZero req = true ∧
        (nowMs : ℚ) / 1000 > (req.order.expiry : ℚ) then
      (orderBooks, { status := 400, error := some "Order has expired", result := none })
    else
      let result := processOrder orderBooks req.order
      if result.2.success then
        (result.1, { status := 201, error := none, result := some result.2 })
      else
        (result.1, { status := 400, error := some result.2.message, result := none })

/-- The three conditions of the validation gate, in the words of the specification. -/
def PassesValidation (verifyTypedData : Order → String → Option String) (nowMs : Nat)
    (order : Order) (signature : String) : Prop :=
  (∃ signer, verifyTypedData order signature = some signer ∧
    toLowerCase signer = toLowerCase order.maker) ∧
  0 < order.baseSize ∧
  (order.expiry = 0 ∨ ¬ ((nowMs : ℚ) / 1000 > (order.expiry : ℚ)))

/-! ## More scenarios -/

/-- Scenario B, the books: market `"M"` holds one ask, 10 at 100 from A. -/
def booksB : OrderBooks := booksOfM bookD

/-- An ask of 10 at 100 from A that expired at unix time 1. -/
def expiredAsk : Order := { limitOrder "A" false 10 100 with expiry := 1 }

/-- A book whose only resting order is the expired ask. -/
def bookExpired : Book := { bids := [], asks := [expiredAsk] }

/-- A signature check that recovers the signer `0xABCD` from every request. -/
def recoverABCD : Order → String → Option String := fun _ _ => some "0xABCD"

/-- A sell of 10 at 100 signed by `0xabcd`, without expiry. -/
def sellAbcd : Order := { limitOrder "0xabcd" false 10 100 with expiry := 0 }

/-- The request for `sellAbcd` with `expiry` sent as the string `"0"`. -/
def requestStringExpiry : OrderRequest :=
  { order := sellAbcd, expirySentAsString := true, signature := "sig" }

/-- The request for `sellAbcd` with `expiry` sent as the number `0`. -/
def requestNumberExpiry : OrderRequest :=
  { order := sellAbcd, expirySentAsString := false, signature := "sig" }

/-! ## The taker walk, equation by equation -/

theorem takerWalk_nil (b : Bool) (t : Order) (rem : Nat) (acc : List Trade) :
    takerWalk b t rem [] acc = ⟨rem, [], acc⟩ := by
  rw [takerWalk]

theorem takerWalk_zero (b : Bool) (t : Order) (side : List Order) (acc : List Trade) :
    takerWalk b t 0 side acc = ⟨0, side, acc⟩ := by
  cases side with
  | nil => rw [takerWalk]
  | cons m rest => rw [takerWalk]; simp

theorem takerWalk_nocross (b : Bool) (t m : Order) (rem : Nat) (rest : List Order)
    (acc : List Trade) (h : priceCrosses t m = false) :
    takerWalk b t rem (m :: rest) acc = ⟨rem, m :: rest, acc⟩ := by
  rw [takerWalk]; simp [h]

theorem takerWalk_full (t m : Order) (rem : Nat) (rest : List Order) (acc : List Trade)
    (hpos : 0 < rem) (hc : priceCrosses t m = true) (hle : m.baseSize ≤ rem) :
    takerWalk true t rem (m :: rest) acc =
      takerWalk true t (rem - m.baseSize) rest (acc ++ [mkTrade t m m.baseSize]) := by
  rw [takerWalk]
  have h1 : ¬ rem < m.baseSize := by omega
  simp [hpos, hc, h1, mkTrade]

theorem takerWalk_short (t m : Order) (rem : Nat) (rest : List Order) (acc : List Trade)
    (hpos : 0 < rem) (hc : priceCrosses t m = true) (hlt : rem < m.baseSize) :
    takerWalk true t rem (m :: rest) acc =
      ⟨0, { m with baseSize := m.baseSize - rem } :: rest, acc ++ [mkTrade t m rem]⟩ := by
  rw [takerWalk]
  have h1 : ¬ (m.baseSize - rem = 0) := by omega
  simp [hpos, hc, hlt, h1, mkTrade, takerWalk_zero]

theorem takerWalk_reject (t m : Order) (rem : Nat) (rest : List Order) (acc : List Trade)
    (hpos : 0 < rem) (hc : priceCrosses t m = true) :
    takerWalk false t rem (m :: rest) acc = takerWalk false t rem rest acc := by
  rw [takerWalk]
  simp [hpos, hc]

/-- Shape of the walk: a prefix `pre` of makers is matched in order and filled whole; then the
walk either stops, or fills the next maker partially with all that is left of the taker. -/
theorem takerWalk_shape (t : Order) : ∀ (side : List Order) (rem : Nat) (acc : List Trade),
    ∃ pre post, side = pre ++ post ∧ (∀ m ∈ pre, priceCrosses t m = true) ∧
      sizeSum pre ≤ rem ∧ (pre ≠ [] → 0 < rem) ∧
      ((takerWalk true t rem side acc =
            ⟨rem - sizeSum pre, post, acc ++ fullTrades t pre⟩ ∧
          WalkDone t (rem - sizeSum pre) post) ∨
       (∃ mk post1, post = mk :: post1 ∧ priceCrosses t mk = true ∧
          0 < rem - sizeSum pre ∧ rem - sizeSum pre < mk.baseSize ∧
          takerWalk true t rem side acc =
            ⟨0, { mk with baseSize := mk.baseSize - (rem - sizeSum pre) } :: post1,
              acc ++ fullTrades t pre ++ [mkTrade t mk (rem - sizeSum pre)]⟩)) := by
  intro side
  induction side with
  | nil =>
    intro rem acc
    exact ⟨[], [], rfl, by simp, by simp [sizeSum], by simp,
      Or.inl ⟨by simp [takerWalk_nil, sizeSum, fullTrades], Or.inr (Or.inl rfl)⟩⟩
  | cons m rest ih =>
    intro rem acc
    by_cases hpos : 0 < rem
    · cases hc : priceCrosses t m with
      | false =>
        exact ⟨[], m :: rest, rfl, by simp, by simp [sizeSum], by simp,
          Or.inl ⟨by simp [takerWalk_nocross _ _ _ _ _ _ hc, sizeSum, fullTrades],
            Or.inr (Or.inr ⟨m, rest, rfl, hc⟩)⟩⟩
      | true =>
        by_cases hle : m.baseSize ≤ rem
        · obtain ⟨pre, post, hsplit, hcross, hsum, hne, hres⟩ :=
            ih (rem - m.baseSize) (acc ++ [mkTrade t m m.baseSize])
          have hs : sizeSum (m :: pre) = m.baseSize + sizeSum pre := by simp [sizeSum]
          have hsub : rem - m.baseSize - sizeSum pre = rem - sizeSum (m :: pre) := by
            rw [hs]; omega
          refine ⟨m :: pre, post, by simp [hsplit], ?_, by rw [hs]; omega, fun _ => hpos, ?_⟩
          · intro x hx
            rcases List.mem_cons.mp hx with rfl | hx
            · exact hc
            · exact hcross x hx
          · rw [takerWalk_full t m rem rest acc hpos hc hle, ← hsub]
            rcases hres with ⟨hw, hd⟩ | ⟨mk, post1, hp, hck, h0, hlt, hw⟩
            · exact Or.inl ⟨by rw [hw]; simp [fullTrades], hd⟩
            · exact Or.inr ⟨mk, post1, hp, hck, h0, hlt, by rw [hw]; simp [fullTrades]⟩
        · have hlt : rem < m.baseSize := by omega
          exact ⟨[], m :: rest, rfl, by simp, by simp [sizeSum], by simp,
            Or.inr ⟨m, rest, rfl, hc, by simpa [sizeSum] using hpos, by simpa [sizeSum] using hlt,
              by simp [takerWalk_short t m rem rest acc hpos hc hlt, sizeSum, fullTrades]⟩⟩
    · have h0 : rem = 0 := by omega
      subst h0
      exact ⟨[], m :: rest, rfl, by simp, by simp [sizeSum], by simp,
        Or.inl ⟨by simp [takerWalk_zero, sizeSum, fullTrades], Or.inl (by simp [sizeSum])⟩⟩

/-! ## Sorting a side: order, content, stability -/

theorem keepsOrder_bid (a b : Order) : keepsOrder bidCompare a b ↔ b.priceX18 ≤ a.priceX18 := by
  unfold keepsOrder bidCompare; omega

theorem keepsOrder_ask (a b : Order) : keepsOrder askCompare a b ↔ a.priceX18 ≤ b.priceX18 := by
  unfold keepsOrder askCompare; omega

theorem mem_arraySort (c : Order → Order → Int) (l : List Order) (x : Order) :
    x ∈ arraySort c l ↔ x ∈ l := by
  unfold arraySort; exact List.mem_insertionSort _

theorem arraySort_perm (c : Order → Order → Int) (l : List Order) :
    (arraySort c l).Perm l := by
  unfold arraySort; exact List.perm_insertionSort _ l

theorem bidsSorted_arraySort (l : List Order) : BidsSorted (arraySort bidCompare l) := by
  have h := List.sorted_insertionSort (keepsOrder bidCompare) l
  unfold BidsSorted arraySort
  exact h.imp (fun hab => (keepsOrder_bid _ _).mp hab)

theorem asksSorted_arraySort (l : List Order) : AsksSorted (arraySort askCompare l) := by
  have h := List.sorted_insertionSort (keepsOrder askCompare) l
  unfold AsksSorted arraySort
  exact h.imp (fun hab => (keepsOrder_ask _ _).mp hab)

theorem filter_orderedInsert (r : Order → Order → Prop) [DecidableRel r] (p : Order → Bool)
    (hp : ∀ a b, p a = true → p b = true → r a b) (a : Order) :
    ∀ l : List Order, (List.orderedInsert r a l).filter p = (a :: l).filter p := by
  intro l
  induction l with
  | nil => simp
  | cons b l ih =>
    by_cases hab : r a b
    · simp [List.orderedInsert, hab]
    · have hne : ¬ (p a = true ∧ p b = true) := fun h => hab (hp a b h.1 h.2)
      simp only [List.orderedInsert, hab, if_false]
      rw [List.filter_cons, ih]
      cases hpa : p a <;> cases hpb : p b <;> simp_all [List.filter_cons]

theorem filter_insertionSort (r : Order → Order → Prop) [DecidableRel r] (p : Order → Bool)
    (hp : ∀ a b, p a = true → p b = true → r a b) :
    ∀ l : List Order, (List.insertionSort r l).filter p = l.filter p := by
  intro l
  induction l with
  | nil => simp
  | cons a l ih =>
    rw [List.insertionSort, filter_orderedInsert r p hp, List.filter_cons, List.filter_cons, ih]

theorem atPrice_arraySort_bid (price : Nat) (l : List Order) :
    atPrice price (arraySort bidCompare l) = atPrice price l := by
  unfold atPrice arraySort
  apply filter_insertionSort
  intro a b ha hb
  rw [keepsOrder_bid]
  simp only [decide_eq_true_eq] at ha hb
  omega

theorem atPrice_arraySort_ask (price : Nat) (l : List Order) :
    atPrice price (arraySort askCompare l) = atPrice price l := by
  unfold atPrice arraySort
  apply filter_insertionSort
  intro a b ha hb
  rw [keepsOrder_ask]
  simp only [decide_eq_true_eq] at ha hb
  omega

/-! ## Classification and the two paths -/

theorem isTaker_iff (order : Order) (book : Book) :
    isTaker order book = true ↔ CrossesBestOpposite order book := by
  unfold isTaker CrossesBestOpposite
  cases hl : order.isLong <;> simp
  · cases book.bids <;> simp
  · cases book.asks <;> simp

theorem isTaker_false_iff (order : Order) (book : Book) :
    isTaker order book = false ↔ ¬ CrossesBestOpposite order book := by
  rw [← isTaker_iff]; simp

theorem crossesBest_front (order : Order) (book : Book) (h : CrossesBestOpposite order book) :
    ∃ best rest, oppositeSide order book = best :: rest ∧ priceCrosses order best = true := by
  unfold CrossesBestOpposite at h
  rcases h with ⟨hl, a, rest, hs, hp⟩ | ⟨hl, b, rest, hs, hp⟩
  · exact ⟨a, rest, by simp [oppositeSide, hl, hs], by simp [priceCrosses, hl, hp]⟩
  · exact ⟨b, rest, by simp [oppositeSide, hl, hs], by simp [priceCrosses, hl, hp]⟩

theorem processOrder_taker (orderBooks : OrderBooks) (order : Order)
    (h : CrossesBestOpposite order (bookFor orderBooks order.marketId)) :
    processOrder orderBooks order =
      (orderBooks.set order.marketId
          (handleTakerOrder order (bookFor orderBooks order.marketId)).1,
        (handleTakerOrder order (bookFor orderBooks order.marketId)).2) := by
  simp [processOrder, (isTaker_iff _ _).mpr h]

theorem processOrder_maker (orderBooks : OrderBooks) (order : Order)
    (h : ¬ CrossesBestOpposite order (bookFor orderBooks order.marketId)) :
    processOrder orderBooks order =
      (orderBooks.set order.marketId
          (handleMakerOrder order (bookFor orderBooks order.marketId)).1,
        (handleMakerOrder order (bookFor orderBooks order.marketId)).2) := by
  simp [processOrder, (isTaker_false_iff _ _).mpr h]

theorem set_same (orderBooks : OrderBooks) (marketId : String) (book : Book) :
    orderBooks.set marketId book marketId = some book := by
  simp [OrderBooks.set]

theorem set_other (orderBooks : OrderBooks) (marketId k : String) (book : Book)
    (h : k ≠ marketId) : orderBooks.set marketId book k = orderBooks k := by
  simp [OrderBooks.set, h]

theorem first_trade (t : Order) (best : Order) (rest : List Order)
    (hsize : 0 < t.baseSize) (hc : priceCrosses t best = true) :
    ∃ trs, (takerWalk true t t.baseSize (best :: rest) []).trades =
      mkTrade t best (min t.baseSize best.baseSize) :: trs := by
  by_cases hle : best.baseSize ≤ t.baseSize
  · rw [takerWalk_full t best t.baseSize rest [] hsize hc hle, Nat.min_eq_right hle]
    obtain ⟨pre, post, _, _, _, _, hres⟩ :=
      takerWalk_shape t rest (t.baseSize - best.baseSize) ([] ++ [mkTrade t best best.baseSize])
    rcases hres with ⟨hw, _⟩ | ⟨mk, post1, _, _, _, _, hw⟩
    · exact ⟨fullTrades t pre, by rw [hw]; rfl⟩
    · exact ⟨fullTrades t pre ++ [mkTrade t mk (t.baseSize - best.baseSize - sizeSum pre)],
        by rw [hw]; simp⟩
  · have hlt : t.baseSize < best.baseSize := by omega
    rw [takerWalk_short t best t.baseSize rest [] hsize hc hlt, Nat.min_eq_left (Nat.le_of_lt hlt)]
    exact ⟨[], rfl⟩

/-! ## Sequences of maker insertions -/

theorem insertMakers_snoc (book : Book) (orders : List Order) (o : Order) :
    insertMakers book (orders ++ [o]) = (handleMakerOrder o (insertMakers book orders)).1 := by
  simp [insertMakers, List.foldl_append]

theorem atPrice_append (price : Nat) (l1 l2 : List Order) :
    atPrice price (l1 ++ l2) = atPrice price l1 ++ atPrice price l2 := by
  simp [atPrice]

theorem insertMakers_bids (orders : List Order) (h : ∀ o ∈ orders, o.isLong = true) :
    BidsSorted (insertMakers emptyBook orders).bids ∧
      (insertMakers emptyBook orders).asks = [] ∧
      ∀ price, atPrice price (insertMakers emptyBook orders).bids = atPrice price orders := by
  induction orders using List.reverseRecOn with
  | nil => exact ⟨List.Pairwise.nil, rfl, fun _ => rfl⟩
  | append_singleton l o ih =>
    have hl : ∀ x ∈ l, x.isLong = true := fun x hx => h x (List.mem_append_left _ hx)
    have ho : o.isLong = true := h o (by simp)
    obtain ⟨_, hasks, hat⟩ := ih hl
    rw [insertMakers_snoc]
    simp only [handleMakerOrder, ho, if_true]
    refine ⟨bidsSorted_arraySort _, hasks, fun price => ?_⟩
    rw [atPrice_arraySort_bid, atPrice_append, atPrice_append, hat]

theorem insertMakers_asks (orders : List Order) (h : ∀ o ∈ orders, o.isLong = false) :
    AsksSorted (insertMakers emptyBook orders).asks ∧
      (insertMakers emptyBook orders).bids = [] ∧
      ∀ price, atPrice price (insertMakers emptyBook orders).asks = atPrice price orders := by
  induction orders using List.reverseRecOn with
  | nil => exact ⟨List.Pairwise.nil, rfl, fun _ => rfl⟩
  | append_singleton l o ih =>
    have hl : ∀ x ∈ l, x.isLong = false := fun x hx => h x (List.mem_append_left _ hx)
    have ho : o.isLong = false := h o (by simp)
    obtain ⟨_, hbids, hat⟩ := ih hl
    rw [insertMakers_snoc]
    simp only [handleMakerOrder, ho, if_false, Bool.false_eq_true]
    refine ⟨asksSorted_arraySort _, hbids, fun price => ?_⟩
    rw [atPrice_arraySort_ask, atPrice_append, atPrice_append, hat]

/-! ## The result of `handleTakerOrder` -/

theorem handleTakerOrder_outcome (t : Order) (book : Book) :
    (handleTakerOrder t book).2 =
      { success := true, message := "Trade executed.", trades := some (walkOf t book).trades } :=
  rfl

theorem handleTakerOrder_opposite (t : Order) (book : Book) :
    oppositeSide t (handleTakerOrder t book).1 = (walkOf t book).bookSide := by
  cases hl : t.isLong <;>
    by_cases hr : 0 < (walkOf t book).remainingSize <;>
    simp [handleTakerOrder, handleMakerOrder, oppositeSide, walkOf, hl] at hr ⊢ <;>
    simp [hr]

theorem handleTakerOrder_own (t : Order) (book : Book) :
    ownSide t (handleTakerOrder t book).1 =
      if 0 < (walkOf t book).remainingSize then
        arraySort (sideCompare t.isLong)
          (ownSide t book ++ [restOf t (walkOf t book).remainingSize])
      else ownSide t book := by
  cases hl : t.isLong <;>
    by_cases hr : 0 < (walkOf t book).remainingSize <;>
    simp [handleTakerOrder, handleMakerOrder, ownSide, oppositeSide, walkOf, hl, sideCompare,
      restOf] at hr ⊢ <;>
    simp [hr]

theorem tradeSizeSum_fullTrades (t : Order) (pre : List Order) :
    tradeSizeSum (fullTrades t pre) = sizeSum pre := by
  induction pre with
  | nil => rfl
  | cons m pre ih =>
    simp only [tradeSizeSum, fullTrades, sizeSum, List.map_cons, List.sum_cons, mkTrade] at ih ⊢
    rw [ih]

theorem tradeSizeSum_append (l1 l2 : List Trade) :
    tradeSizeSum (l1 ++ l2) = tradeSizeSum l1 + tradeSizeSum l2 := by
  simp [tradeSizeSum]

theorem walkOf_conservation (t : Order) (book : Book) :
    tradeSizeSum (walkOf t book).trades + (walkOf t book).remainingSize = t.baseSize := by
  obtain ⟨pre, post, _, _, hsum, _, hres⟩ :=
    takerWalk_shape t (oppositeSide t book) t.baseSize []
  unfold walkOf blockchainSuccess
  rcases hres with ⟨hw, _⟩ | ⟨mk, post1, _, _, h0, _, hw⟩
  · rw [hw]
    simp only [List.nil_append, tradeSizeSum_fullTrades]
    omega
  · rw [hw]
    simp only [List.nil_append, tradeSizeSum_append, tradeSizeSum_fullTrades]
    simp only [tradeSizeSum, mkTrade, List.map_cons, List.map_nil, List.sum_cons, List.sum_nil]
    omega

theorem fullTrades_pos (t : Order) (pre : List Order) (hpos : ∀ m ∈ pre, 0 < m.baseSize) :
    ∀ tr ∈ fullTrades t pre, 0 < tr.size := by
  intro tr htr
  simp only [fullTrades, List.mem_map] at htr
  obtain ⟨m, hm, rfl⟩ := htr
  exact hpos m hm

theorem sorted_take_prices (isLong : Bool) (book : Book) (k : Nat)
    (hsorted : if isLong then AsksSorted book.asks else BidsSorted book.bids) :
    if isLong then
      ((List.take k book.asks).map (fun m => m.priceX18)).Pairwise (fun p q => p ≤ q)
    else
      ((List.take k book.bids).map (fun m => m.priceX18)).Pairwise (fun p q => p ≥ q) := by
  cases isLong
  · simp only [Bool.false_eq_true, if_false] at hsorted ⊢
    rw [List.pairwise_map]
    exact List.Pairwise.sublist (List.take_sublist _ _) hsorted
  · simp only [if_true] at hsorted ⊢
    rw [List.pairwise_map]
    exact List.Pairwise.sublist (List.take_sublist _ _) hsorted

theorem sizeSum_take_le (l : List Order) : ∀ (i : Nat) (m : Order), l[i]? = some m →
    sizeSum (l.take i) + m.baseSize ≤ sizeSum l := by
  induction l with
  | nil => intro i m h; simp at h
  | cons a l ih =>
    intro i m h
    cases i with
    | zero =>
      simp only [List.getElem?_cons_zero, Option.some.injEq] at h
      subst h
      simp [sizeSum]
    | succ i =>
      simp only [List.getElem?_cons_succ] at h
      have := ih i m h
      simp only [sizeSum, List.take_succ_cons, List.map_cons, List.sum_cons] at this ⊢
      omega

theorem fullTrades_getElem_at (t : Order) (pre : List Order) (i : Nat) :
    (fullTrades t pre)[i]? = (pre[i]?).map (fun m => mkTrade t m m.baseSize) := by
  simp [fullTrades]

theorem fullTrades_take (t : Order) (pre : List Order) (i : Nat) :
    (fullTrades t pre).take i = fullTrades t (pre.take i) := by
  simp [fullTrades, List.map_take]

theorem fullTrades_length (t : Order) (pre : List Order) :
    (fullTrades t pre).length = pre.length := by
  simp [fullTrades]

/-! ## The book invariant -/

theorem BookInv.uncrossed {book : Book} (h : BookInv book) : Uncrossed book := by
  obtain ⟨_, _, hx⟩ := h
  unfold Uncrossed
  split
  · rename_i b _ a _ hb ha
    exact hx b (by rw [hb]; exact List.mem_cons_self _ _) a
      (by rw [ha]; exact List.mem_cons_self _ _)
  · trivial

theorem bookInv_empty : BookInv { bids := [], asks := [] } :=
  ⟨List.Pairwise.nil, List.Pairwise.nil, fun _ hb => by simp at hb⟩

theorem bidsSorted_iff_prices (l : List Order) :
    BidsSorted l ↔ (l.map (fun m => m.priceX18)).Pairwise (fun p q => p ≥ q) := by
  unfold BidsSorted; rw [List.pairwise_map]

theorem asksSorted_iff_prices (l : List Order) :
    AsksSorted l ↔ (l.map (fun m => m.priceX18)).Pairwise (fun p q => p ≤ q) := by
  unfold AsksSorted; rw [List.pairwise_map]

theorem mem_of_prices_eq {l1 l2 : List Order}
    (h : l1.map (fun m => m.priceX18) = l2.map (fun m => m.priceX18)) {a : Order}
    (ha : a ∈ l1) : ∃ a2 ∈ l2, a2.priceX18 = a.priceX18 := by
  have : a.priceX18 ∈ l1.map (fun m => m.priceX18) := List.mem_map.mpr ⟨a, ha, rfl⟩
  rw [h] at this
  obtain ⟨a2, h2, he⟩ := List.mem_map.mp this
  exact ⟨a2, h2, he⟩

/-- What the walk leaves of the opposite side: a tail `post` of it, up to the size of its front
order; and if something is left of the taker, the front order of `post` does not cross. -/
theorem walkOf_side (t : Order) (book : Book) :
    ∃ pre post, oppositeSide t book = pre ++ post ∧
      (walkOf t book).bookSide.map (fun m => m.priceX18) = post.map (fun m => m.priceX18) ∧
      (0 < (walkOf t book).remainingSize →
        post = [] ∨ ∃ m rest, post = m :: rest ∧ priceCrosses t m = false) := by
  obtain ⟨pre, post, hsplit, _, _, _, hres⟩ :=
    takerWalk_shape t (oppositeSide t book) t.baseSize []
  unfold walkOf blockchainSuccess
  rcases hres with ⟨hw, hd⟩ | ⟨mk, post1, hp, _, _, _, hw⟩
  · refine ⟨pre, post, hsplit, by rw [hw], ?_⟩
    rw [hw]
    intro hrem
    rcases hd with h0 | h | h
    · simp only at hrem; omega
    · exact Or.inl h
    · exact Or.inr h
  · refine ⟨pre, post, hsplit, by rw [hw, hp]; rfl, ?_⟩
    rw [hw]
    intro hrem
    simp at hrem

theorem handleMakerOrder_inv (order : Order) (book : Book) (h : BookInv book)
    (hfront : oppositeSide order book = [] ∨
      ∃ m rest, oppositeSide order book = m :: rest ∧ priceCrosses order m = false) :
    BookInv (handleMakerOrder order book).1 := by
  obtain ⟨hb, ha, hx⟩ := h
  cases hl : order.isLong
  · -- a sell: it joins the asks
    simp only [handleMakerOrder, hl, Bool.false_eq_true, if_false]
    refine ⟨hb, asksSorted_arraySort _, ?_⟩
    intro b hbm a ham
    rw [mem_arraySort, List.mem_append, List.mem_singleton] at ham
    rcases ham with ham | rfl
    · exact hx b hbm a ham
    · simp only [oppositeSide, hl, Bool.false_eq_true, if_false] at hfront
      rcases hfront with hnil | ⟨m, rest, hm, hc⟩
      · rw [hnil] at hbm; simp at hbm
      · simp only [priceCrosses, hl, Bool.false_eq_true, if_false, decide_eq_false_iff_not,
          not_le] at hc
        rw [hm] at hbm hb
        rcases List.mem_cons.mp hbm with rfl | hbm
        · exact hc
        · have := List.rel_of_pairwise_cons hb hbm
          omega
  · -- a buy: it joins the bids
    simp only [handleMakerOrder, hl, if_true]
    refine ⟨bidsSorted_arraySort _, ha, ?_⟩
    intro b hbm a ham
    rw [mem_arraySort, List.mem_append, List.mem_singleton] at hbm
    rcases hbm with hbm | rfl
    · exact hx b hbm a ham
    · simp only [oppositeSide, hl, if_true] at hfront
      rcases hfront with hnil | ⟨m, rest, hm, hc⟩
      · rw [hnil] at ham; simp at ham
      · simp only [priceCrosses, hl, if_true, decide_eq_false_iff_not, not_le, ge_iff_le] at hc
        rw [hm] at ham ha
        rcases List.mem_cons.mp ham with rfl | ham
        · exact hc
        · have := List.rel_of_pairwise_cons ha ham
          omega

theorem not_crossesBest_front (order : Order) (book : Book)
    (h : ¬ CrossesBestOpposite order book) :
    oppositeSide order book = [] ∨
      ∃ m rest, oppositeSide order book = m :: rest ∧ priceCrosses order m = false := by
  unfold CrossesBestOpposite at h
  unfold oppositeSide priceCrosses
  cases hl : order.isLong
  · simp only [hl, Bool.false_eq_true, false_and, true_and, false_or] at h
    simp only [Bool.false_eq_true, if_false]
    cases hb : book.bids with
    | nil => exact Or.inl rfl
    | cons m rest =>
      refine Or.inr ⟨m, rest, rfl, ?_⟩
      simp only [decide_eq_false_iff_not]
      intro hc
      exact h ⟨m, rest, hb, hc⟩
  · simp only [hl, true_and, Bool.true_eq_false, false_and, or_false] at h
    simp only [if_true]
    cases hb : book.asks with
    | nil => exact Or.inl rfl
    | cons m rest =>
      refine Or.inr ⟨m, rest, rfl, ?_⟩
      simp only [decide_eq_false_iff_not]
      intro hc
      exact h ⟨m, rest, hb, hc⟩

theorem handleTakerOrder_book (t : Order) (book : Book) :
    (handleTakerOrder t book).1 =
      if 0 < (walkOf t book).remainingSize then
        (handleMakerOrder (restOf t (walkOf t book).remainingSize)
          (withOpposite t book (walkOf t book).bookSide)).1
      else withOpposite t book (walkOf t book).bookSide := rfl

theorem withOpposite_inv (t : Order) (book : Book) (side post : List Order)
    (h : BookInv book) (hsub : post.Sublist (oppositeSide t book))
    (hprices : side.map (fun m => m.priceX18) = post.map (fun m => m.priceX18)) :
    BookInv (withOpposite t book side) := by
  obtain ⟨hb, ha, hx⟩ := h
  unfold withOpposite
  cases hl : t.isLong
  · simp only [oppositeSide, hl, Bool.false_eq_true, if_false] at hsub ⊢
    refine ⟨?_, ha, ?_⟩
    · rw [bidsSorted_iff_prices, hprices, ← bidsSorted_iff_prices]
      exact List.Pairwise.sublist hsub hb
    · intro b hbm a ham
      obtain ⟨b2, hb2, he⟩ := mem_of_prices_eq hprices hbm
      rw [← he]
      exact hx b2 (hsub.subset hb2) a ham
  · simp only [oppositeSide, hl, if_true] at hsub ⊢
    refine ⟨hb, ?_, ?_⟩
    · rw [asksSorted_iff_prices, hprices, ← asksSorted_iff_prices]
      exact List.Pairwise.sublist hsub ha
    · intro b hbm a ham
      obtain ⟨a2, ha2, he⟩ := mem_of_prices_eq hprices ham
      rw [← he]
      exact hx b hbm a2 (hsub.subset ha2)

theorem oppositeSide_withOpposite (t : Order) (book : Book) (side : List Order) :
    oppositeSide t (withOpposite t book side) = side := by
  unfold oppositeSide withOpposite
  cases hl : t.isLong <;> simp

theorem front_of_prices_eq (t : Order) {side post : List Order}
    (hprices : side.map (fun m => m.priceX18) = post.map (fun m => m.priceX18))
    (hfront : post = [] ∨ ∃ m rest, post = m :: rest ∧ priceCrosses t m = false) :
    side = [] ∨ ∃ m rest, side = m :: rest ∧ priceCrosses t m = false := by
  rcases hfront with rfl | ⟨m, rest, rfl, hc⟩
  · left
    simpa using hprices
  · right
    cases side with
    | nil => simp at hprices
    | cons m2 rest2 =>
      simp only [List.map_cons, List.cons.injEq] at hprices
      refine ⟨m2, rest2, rfl, ?_⟩
      unfold priceCrosses at hc ⊢
      rw [hprices.1]
      exact hc

theorem handleTakerOrder_inv (t : Order) (book : Book) (h : BookInv book) :
    BookInv (handleTakerOrder t book).1 := by
  obtain ⟨pre, post, hsplit, hprices, hfront⟩ := walkOf_side t book
  have hsub : post.Sublist (oppositeSide t book) := by
    rw [hsplit]; exact List.sublist_append_right _ _
  have h1 := withOpposite_inv t book _ post h hsub hprices
  rw [handleTakerOrder_book]
  by_cases hrem : 0 < (walkOf t book).remainingSize
  · rw [if_pos hrem]
    apply handleMakerOrder_inv _ _ h1
    have hopp : oppositeSide (restOf t (walkOf t book).remainingSize)
        (withOpposite t book (walkOf t book).bookSide) = (walkOf t book).bookSide :=
      oppositeSide_withOpposite t book _
    rw [hopp]
    exact front_of_prices_eq t hprices (hfront hrem)
  · rw [if_neg hrem]
    exact h1

theorem processOrder_inv (orderBooks : OrderBooks) (order : Order)
    (h : ∀ marketId book, orderBooks marketId = some book → BookInv book) :
    ∀ marketId book, (processOrder orderBooks order).1 marketId = some book → BookInv book := by
  have hbook : BookInv (bookFor orderBooks order.marketId) := by
    unfold bookFor
    cases hb : orderBooks order.marketId with
    | none => exact bookInv_empty
    | some b => exact h _ _ hb
  intro marketId book hget
  by_cases hm : marketId = order.marketId
  · subst hm
    by_cases hc : CrossesBestOpposite order (bookFor orderBooks order.marketId)
    · rw [processOrder_taker orderBooks order hc] at hget
      simp only [set_same, Option.some.injEq] at hget
      rw [← hget]
      exact handleTakerOrder_inv order _ hbook
    · rw [processOrder_maker orderBooks order hc] at hget
      simp only [set_same, Option.some.injEq] at hget
      rw [← hget]
      exact handleMakerOrder_inv order _ hbook (not_crossesBest_front order _ hc)
  · have : (processOrder orderBooks order).1 marketId = orderBooks marketId := by
      unfold processOrder
      exact set_other _ _ _ _ hm
    rw [this] at hget
    exact h _ _ hget

theorem processAll_inv (orders : List Order) : ∀ (orderBooks : OrderBooks),
    (∀ marketId book, orderBooks marketId = some book → BookInv book) →
    ∀ marketId book, processAll orderBooks orders marketId = some book → BookInv book := by
  induction orders with
  | nil => intro orderBooks h; exact h
  | cons o rest ih =>
    intro orderBooks h
    exact ih _ (processOrder_inv orderBooks o h)

theorem atPrice_arraySort_side (isLong : Bool) (price : Nat) (l : List Order) :
    atPrice price (arraySort (sideCompare isLong) l) = atPrice price l := by
  cases isLong
  · exact atPrice_arraySort_ask price l
  · exact atPrice_arraySort_bid price l

theorem walkOf_remaining (t : Order) (book : Book) :
    (walkOf t book).remainingSize = t.baseSize - tradeSizeSum (walkOf t book).trades := by
  have := walkOf_conservation t book
  omega

/-! ## The scenarios, evaluated -/

theorem booksC_book : bookFor booksC buyC.marketId =
    { bids := [], asks := [limitOrder "A" false 5 100] } := by
  decide

theorem booksC_crosses : CrossesBestOpposite buyC (bookFor booksC buyC.marketId) := by
  rw [booksC_book]
  exact Or.inl ⟨rfl, _, _, rfl, by decide⟩

theorem sellA_not_crossing :
    ¬ CrossesBestOpposite sellA (bookFor emptyBooks sellA.marketId) := by
  simp [CrossesBestOpposite, sellA, limitOrder, bookFor, emptyBooks]

theorem processOrder_booksC :
    (processOrder booksC buyC).1 "M" =
        some { bids := [limitOrder "B" true 5 100], asks := [] } ∧
      (processOrder booksC buyC).2 =
        { success := true, message := "Trade executed.",
          trades := some
            [{ marketId := "M", price := 100, size := 5, taker := "B", maker := "A" }] } := by
  simp [processOrder, booksC, buyC, booksOfM, bookFor, OrderBooks.set, emptyBooks, limitOrder,
    isTaker, handleTakerOrder, handleMakerOrder, takerWalk, blockchainSuccess, oppositeSide,
    priceCrosses, mkTrade, arraySort]

theorem handleTakerOrder_bookE :
    handleTakerOrder sellE bookE =
      ({ bids := [limitOrder "Y" true 3 100], asks := [] },
        { success := true, message := "Trade executed.",
          trades := some [{ marketId := "M", price := 100, size := 8, taker := "T", maker := "X" },
            { marketId := "M", price := 100, size := 2, taker := "T", maker := "Y" }] }) := by
  simp [sellE, bookE, handleTakerOrder, handleMakerOrder, takerWalk, blockchainSuccess,
    oppositeSide, priceCrosses, mkTrade, limitOrder]

theorem processAll_session :
    processAll emptyBooks session "M" =
      some { bids := [limitOrder "C" true 3 99], asks := [limitOrder "A" false 6 100] } := by
  simp [session, processAll, processOrder, bookFor, OrderBooks.set, emptyBooks, limitOrder,
    isTaker, handleTakerOrder, handleMakerOrder, takerWalk, blockchainSuccess, oppositeSide,
    priceCrosses, mkTrade, arraySort]

/-! ## Fill sizes, settlement failures, the submission gate -/

/-- One iteration of the loop body when the settlement succeeds, with the fill size written
as a minimum. -/
theorem takerWalk_iteration (t m : Order) (rem : Nat) (rest : List Order) (acc : List Trade)
    (hpos : 0 < rem) (hc : priceCrosses t m = true) :
    takerWalk true t rem (m :: rest) acc =
      takerWalk true t (rem - min rem m.baseSize)
        (if m.baseSize - min rem m.baseSize = 0 then rest
          else { m with baseSize := m.baseSize - min rem m.baseSize } :: rest)
        (acc ++ [mkTrade t m (min rem m.baseSize)]) := by
  by_cases hle : m.baseSize ≤ rem
  · rw [takerWalk_full t m rem rest acc hpos hc hle, Nat.min_eq_right hle]
    simp
  · have hlt : rem < m.baseSize := by omega
    have hne : ¬ (m.baseSize - rem = 0) := by omega
    rw [takerWalk_short t m rem rest acc hpos hc hlt, Nat.min_eq_left (Nat.le_of_lt hlt),
      if_neg hne, Nat.sub_self, takerWalk_zero]

/-- Every trade of the walk is made against a crossing order of the side, at that order's
price, in the taker's market. -/
theorem walkOf_trades_cross (t : Order) (book : Book) :
    ∀ tr ∈ (walkOf t book).trades, ∃ m ∈ oppositeSide t book,
      priceCrosses t m = true ∧ tr.price = m.priceX18 ∧ tr.marketId = t.marketId := by
  obtain ⟨pre, post, hsplit, hcross, _, _, hres⟩ :=
    takerWalk_shape t (oppositeSide t book) t.baseSize []
  have hfull : ∀ tr ∈ fullTrades t pre, ∃ m ∈ oppositeSide t book,
      priceCrosses t m = true ∧ tr.price = m.priceX18 ∧ tr.marketId = t.marketId := by
    intro tr htr
    simp only [fullTrades, List.mem_map] at htr
    obtain ⟨m, hm, rfl⟩ := htr
    exact ⟨m, by rw [hsplit]; exact List.mem_append_left _ hm, hcross m hm, rfl, rfl⟩
  unfold walkOf blockchainSuccess
  rcases hres with ⟨hw, _⟩ | ⟨mk, post1, hp, hck, _, _, hw⟩
  · rw [hw]
    intro tr htr
    exact hfull tr (by simpa using htr)
  · rw [hw]
    intro tr htr
    simp only [List.nil_append, List.mem_append, List.mem_singleton] at htr
    rcases htr with htr | rfl
    · exact hfull tr htr
    · exact ⟨mk, by rw [hsplit, hp]; simp, hck, rfl, rfl⟩

/-- The walk has stopped for one of its three reasons. -/
theorem walkOf_done (t : Order) (book : Book) :
    WalkDone t (walkOf t book).remainingSize (walkOf t book).bookSide := by
  obtain ⟨pre, post, _, _, _, _, hres⟩ :=
    takerWalk_shape t (oppositeSide t book) t.baseSize []
  unfold walkOf blockchainSuccess
  rcases hres with ⟨hw, hd⟩ | ⟨mk, post1, _, _, _, _, hw⟩
  · rw [hw]; exact hd
  · rw [hw]; exact Or.inl rfl

/-- The walk makes at most one trade per resting order of the side. -/
theorem walkOf_trades_length (t : Order) (book : Book) :
    (walkOf t book).trades.length ≤ (oppositeSide t book).length := by
  obtain ⟨pre, post, hsplit, _, _, _, hres⟩ :=
    takerWalk_shape t (oppositeSide t book) t.baseSize []
  unfold walkOf blockchainSuccess
  rcases hres with ⟨hw, _⟩ | ⟨mk, post1, hp, _, _, _, hw⟩
  · rw [hw, hsplit]; simp [fullTrades]
  · rw [hw, hsplit, hp]; simp [fullTrades]

/-- The `i`-th trade of the walk, its maker and what was left of the taker at that pairing:
either the maker fitted whole into what was left, or what was left was positive and smaller
than the maker. -/
theorem walkOf_trade_at (t : Order) (book : Book) (i : Nat) (tr : Trade)
    (hi : (walkOf t book).trades[i]? = some tr) :
    ∃ m, (oppositeSide t book)[i]? = some m ∧
      tr = mkTrade t m (min (t.baseSize - tradeSizeSum ((walkOf t book).trades.take i))
        m.baseSize) ∧
      (tradeSizeSum ((walkOf t book).trades.take i) + m.baseSize ≤ t.baseSize ∨
        (0 < t.baseSize - tradeSizeSum ((walkOf t book).trades.take i) ∧
          t.baseSize - tradeSizeSum ((walkOf t book).trades.take i) < m.baseSize)) := by
  obtain ⟨pre, post, hsplit, _, hsum, _, hres⟩ :=
    takerWalk_shape t (oppositeSide t book) t.baseSize []
  have hfull : ∀ j trj, (fullTrades t pre)[j]? = some trj →
      ∃ m, (oppositeSide t book)[j]? = some m ∧
        trj = mkTrade t m m.baseSize ∧
        sizeSum (pre.take j) + m.baseSize ≤ t.baseSize := by
    intro j trj hj
    rw [fullTrades_getElem_at] at hj
    cases hm : pre[j]? with
    | none => simp [hm] at hj
    | some m =>
      simp only [hm, Option.map_some', Option.some.injEq] at hj
      have hlt : j < pre.length := (List.getElem?_eq_some_iff.mp hm).1
      refine ⟨m, ?_, hj.symm, ?_⟩
      · rw [hsplit, List.getElem?_append_left hlt, hm]
      · have := sizeSum_take_le pre j m hm
        omega
  unfold walkOf blockchainSuccess at hi ⊢
  rcases hres with ⟨hw, _⟩ | ⟨mk, post1, hp, _, h0, hlt, hw⟩
  · rw [hw] at hi ⊢
    simp only [List.nil_append] at hi ⊢
    obtain ⟨m, hm, htr, hle⟩ := hfull i tr hi
    rw [fullTrades_take, tradeSizeSum_fullTrades]
    refine ⟨m, hm, ?_, Or.inl hle⟩
    rw [htr, Nat.min_eq_right (by omega)]
  · rw [hw] at hi ⊢
    simp only [List.nil_append] at hi ⊢
    by_cases hlt2 : i < pre.length
    · rw [List.getElem?_append_left (by rw [fullTrades_length]; exact hlt2)] at hi
      obtain ⟨m, hm, htr, hle⟩ := hfull i tr hi
      rw [List.take_append_of_le_length (by rw [fullTrades_length]; omega), fullTrades_take,
        tradeSizeSum_fullTrades]
      refine ⟨m, hm, ?_, Or.inl hle⟩
      rw [htr, Nat.min_eq_right (by omega)]
    · have hge : pre.length ≤ i := by omega
      rw [List.getElem?_append_right (by rw [fullTrades_length]; exact hge),
        fullTrades_length] at hi
      have hi0 : i - pre.length = 0 := by
        by_contra hne
        have : 1 ≤ i - pre.length := by omega
        rw [List.getElem?_eq_none (by simpa using this)] at hi
        exact Option.noConfusion hi
      have hieq : i = pre.length := by omega
      rw [hi0] at hi
      simp only [List.getElem?_cons_zero, Option.some.injEq] at hi
      rw [hieq, List.take_left' (fullTrades_length _ _), tradeSizeSum_fullTrades]
      refine ⟨mk, ?_, ?_, Or.inr ⟨h0, hlt⟩⟩
      · rw [hsplit, hp, List.getElem?_append_right (le_refl _)]
        simp
      · rw [← hi, Nat.min_eq_left (Nat.le_of_lt hlt)]

theorem handleMakerOrder_sorted (order : Order) (book : Book) (h : BothSorted book) :
    BothSorted (handleMakerOrder order book).1 := by
  cases hl : order.isLong
  · simp only [handleMakerOrder, hl, Bool.false_eq_true, if_false]
    exact ⟨h.1, asksSorted_arraySort _⟩
  · simp only [handleMakerOrder, hl, if_true]
    exact ⟨bidsSorted_arraySort _, h.2⟩

theorem withOpposite_sorted (t : Order) (book : Book) (side post : List Order)
    (h : BothSorted book) (hsub : post.Sublist (oppositeSide t book))
    (hprices : side.map (fun m => m.priceX18) = post.map (fun m => m.priceX18)) :
    BothSorted (withOpposite t book side) := by
  obtain ⟨hb, ha⟩ := h
  unfold withOpposite
  cases hl : t.isLong
  · simp only [oppositeSide, hl, Bool.false_eq_true, if_false] at hsub ⊢
    refine ⟨?_, ha⟩
    show BidsSorted side
    rw [bidsSorted_iff_prices, hprices, ← bidsSorted_iff_prices]
    exact List.Pairwise.sublist hsub hb
  · simp only [oppositeSide, hl, if_true] at hsub ⊢
    refine ⟨hb, ?_⟩
    show AsksSorted side
    rw [asksSorted_iff_prices, hprices, ← asksSorted_iff_prices]
    exact List.Pairwise.sublist hsub ha

theorem handleTakerOrder_sorted (t : Order) (book : Book) (h : BothSorted book) :
    BothSorted (handleTakerOrder t book).1 := by
  obtain ⟨pre, post, hsplit, hprices, _⟩ := walkOf_side t book
  have hsub : post.Sublist (oppositeSide t book) := by
    rw [hsplit]; exact List.sublist_append_right _ _
  have h1 := withOpposite_sorted t book _ post h hsub hprices
  rw [handleTakerOrder_book]
  by_cases hrem : 0 < (walkOf t book).remainingSize
  · rw [if_pos hrem]
    exact handleMakerOrder_sorted _ _ h1
  · rw [if_neg hrem]
    exact h1

theorem sameButFilled_refl (m : Order) : SameButFilled m m := ⟨le_refl _, rfl⟩

theorem sameButFilled_list_refl (l : List Order) : List.Forall₂ SameButFilled l l := by
  induction l with
  | nil => exact List.Forall₂.nil
  | cons m l ih => exact List.Forall₂.cons (sameButFilled_refl m) ih

theorem mem_sides (o : Order) (book : Book) (m : Order) :
    m ∈ book.bids ++ book.asks ↔ m ∈ ownSide o book ∨ m ∈ oppositeSide o book := by
  unfold ownSide oppositeSide
  cases o.isLong <;> simp [or_comm]

theorem handleMakerOrder_own (o : Order) (book : Book) :
    ownSide o (handleMakerOrder o book).1 =
      arraySort (sideCompare o.isLong) (ownSide o book ++ [o]) := by
  cases hl : o.isLong <;> simp [handleMakerOrder, ownSide, sideCompare, hl]

theorem handleMakerOrder_opposite (o : Order) (book : Book) :
    oppositeSide o (handleMakerOrder o book).1 = oppositeSide o book := by
  cases hl : o.isLong <;> simp [handleMakerOrder, oppositeSide, hl]

/-- What the walk does to sizes: the makers `pre` it removes are the ones it traded whole, and
what it leaves is the rest of the side, order for order, with sizes that did not grow and,
on a side of positive sizes, stayed positive. -/
theorem walkOf_sizes (t : Order) (book : Book) :
    ∃ pre post, oppositeSide t book = pre ++ post ∧
      List.Forall₂ SameButFilled (walkOf t book).bookSide post ∧
      (∃ more, (walkOf t book).trades = fullTrades t pre ++ more) ∧
      ((∀ m ∈ oppositeSide t book, 0 < m.baseSize) →
        ∀ m ∈ (walkOf t book).bookSide, 0 < m.baseSize) := by
  obtain ⟨pre, post, hsplit, _, _, _, hres⟩ :=
    takerWalk_shape t (oppositeSide t book) t.baseSize []
  unfold walkOf blockchainSuccess
  rcases hres with ⟨hw, _⟩ | ⟨mk, post1, hp, _, h0, hlt, hw⟩
  · rw [hw]
    refine ⟨pre, post, hsplit, sameButFilled_list_refl post, ⟨[], by simp⟩, ?_⟩
    intro hpos m hm
    exact hpos m (by rw [hsplit]; exact List.mem_append_right _ hm)
  · rw [hw]
    refine ⟨pre, post, hsplit, ?_, ⟨[mkTrade t mk (t.baseSize - sizeSum pre)], by simp⟩, ?_⟩
    · rw [hp]
      refine List.Forall₂.cons ⟨?_, rfl⟩ (sameButFilled_list_refl post1)
      show mk.baseSize - (t.baseSize - sizeSum pre) ≤ mk.baseSize
      omega
    · intro hpos m hm
      rcases List.mem_cons.mp hm with rfl | hm
      · show 0 < mk.baseSize - (t.baseSize - sizeSum pre)
        omega
      · exact hpos m (by rw [hsplit, hp]; simp [hm])

theorem processOrder_success (orderBooks : OrderBooks) (order : Order) :
    (processOrder orderBooks order).2.success = true := by
  cases hx : isTaker order (bookFor orderBooks order.marketId) <;>
    simp [processOrder, hx, handleTakerOrder, handleMakerOrder]

theorem booksB_book : bookFor booksB buyD.marketId = bookD := by decide

theorem processOrder_booksB :
    (processOrder booksB buyD).1 "M" = some { bids := [], asks := [] } ∧
      (processOrder booksB buyD).2 =
        { success := true, message := "Trade executed.",
          trades := some
            [{ marketId := "M", price := 100, size := 10, taker := "B", maker := "A" }] } := by
  simp [processOrder, booksB, bookD, buyD, booksOfM, bookFor, OrderBooks.set, emptyBooks,
    limitOrder, isTaker, handleTakerOrder, handleMakerOrder, takerWalk, blockchainSuccess,
    oppositeSide, priceCrosses, mkTrade, arraySort]

theorem handleTakerOrder_bookExpired :
    handleTakerOrder buyD bookExpired =
      ({ bids := [], asks := [] },
        { success := true, message := "Trade executed.",
          trades := some
            [{ marketId := "M", price := 100, size := 10, taker := "B", maker := "A" }] }) := by
  simp [bookExpired, expiredAsk, buyD, handleTakerOrder, handleMakerOrder, takerWalk,
    blockchainSuccess, oppositeSide, priceCrosses, mkTrade, limitOrder]

theorem sellAbcd_passes : PassesValidation recoverABCD 1700000000000 sellAbcd "sig" :=
  ⟨⟨"0xABCD", rfl, by decide⟩, by decide, Or.inl rfl⟩

/-- With `expiry` sent as a number the gate is the one of the specification: 201 and the books
of `processOrder` exactly when the three conditions hold, otherwise 400 or 401 and unchanged
books, and never "Order has expired" for the number 0. -/
theorem submitOrder_number_expiry_gate (verifyTypedData : Order → String → Option String)
    (nowMs : Nat) (orderBooks : OrderBooks) (req : OrderRequest)
    (hnum : req.expirySentAsString = false) :
    (PassesValidation verifyTypedData nowMs req.order req.signature →
      submitOrder verifyTypedData nowMs orderBooks req =
        ((processOrder orderBooks req.order).1,
          { status := 201, error := none,
            result := some (processOrder orderBooks req.order).2 })) ∧
    (¬ PassesValidation verifyTypedData nowMs req.order req.signature →
      (submitOrder verifyTypedData nowMs orderBooks req).1 = orderBooks ∧
      ((submitOrder verifyTypedData nowMs orderBooks req).2.status = 400 ∨
        (submitOrder verifyTypedData nowMs orderBooks req).2.status = 401) ∧
      (submitOrder verifyTypedData nowMs orderBooks req).2.result = none) ∧
    (req.order.expiry = 0 →
      (submitOrder verifyTypedData nowMs orderBooks req).2.error ≠
        some "Order has expired") := by
  have hz : expiryIsNotTheNumberZero req = true ↔ req.order.expiry ≠ 0 := by
    simp [expiryIsNotTheNumberZero, hnum]
  refine ⟨?_, ?_, ?_⟩
  · rintro ⟨⟨signer, hv, hs⟩, hsize, hexp⟩
    have h2 : ¬ req.order.baseSize ≤ 0 := by omega
    have h3 : ¬ (expiryIsNotTheNumberZero req = true ∧
        (nowMs : ℚ) / 1000 > (req.order.expiry : ℚ)) := by
      rintro ⟨hne, hgt⟩
      rcases hexp with h0 | hle
      · exact (hz.mp hne) h0
      · exact hle hgt
    unfold submitOrder
    simp only [hv, hs, ne_eq, not_true_eq_false, if_false, h2, h3, processOrder_success,
      if_true]
  · intro h
    unfold submitOrder
    cases hv : verifyTypedData req.order req.signature with
    | none => exact ⟨rfl, Or.inl rfl, rfl⟩
    | some signer =>
      simp only
      by_cases hs : toLowerCase signer ≠ toLowerCase req.order.maker
      · rw [if_pos hs]; exact ⟨rfl, Or.inr rfl, rfl⟩
      · rw [if_neg hs]
        by_cases h2 : req.order.baseSize ≤ 0
        · rw [if_pos h2]; exact ⟨rfl, Or.inl rfl, rfl⟩
        · rw [if_neg h2]
          by_cases h3 : expiryIsNotTheNumberZero req = true ∧
              (nowMs : ℚ) / 1000 > (req.order.expiry : ℚ)
          · rw [if_pos h3]; exact ⟨rfl, Or.inl rfl, rfl⟩
          · exfalso
            apply h
            refine ⟨⟨signer, hv, not_not.mp hs⟩, by omega, ?_⟩
            by_cases h0 : req.order.expiry = 0
            · exact Or.inl h0
            · exact Or.inr (fun hgt => h3 ⟨hz.mpr h0, hgt⟩)
  · intro h0
    have h3 : ¬ (expiryIsNotTheNumberZero req = true ∧
        (nowMs : ℚ) / 1000 > (req.order.expiry : ℚ)) := fun h => (hz.mp h.1) h0
    unfold submitOrder
    cases hv : verifyTypedData req.order req.signature with
    | none => simp
    | some signer =>
      simp only
      by_cases hs : toLowerCase signer ≠ toLowerCase req.order.maker
      · rw [if_pos hs]; simp
      · rw [if_neg hs]
        by_cases h2 : req.order.baseSize ≤ 0
        · rw [if_pos h2]; simp
        · rw [if_neg h2, if_neg h3]
          simp only [processOrder_success, if_true]
          simp

theorem handleTakerOrder_bookD :
    handleTakerOrder buyD bookD =
      ({ bids := [], asks := [] },
        { success := true, message := "Trade executed.",
          trades := some
            [{ marketId := "M", price := 100, size := 10, taker := "B", maker := "A" }] }) := by
  simp [bookD, buyD, handleTakerOrder, handleMakerOrder, takerWalk, blockchainSuccess,
    oppositeSide, priceCrosses, mkTrade, limitOrder]

theorem handleTakerOrder_bookTwoAsks :
    handleTakerOrder buyD bookTwoAsks =
      ({ bids := [], asks := [limitOrder "C" false 5 100] },
        { success := true, message := "Trade executed.",
          trades := some
            [{ marketId := "M", price := 100, size := 10, taker := "B", maker := "A" }] }) := by
  simp [bookTwoAsks, buyD, handleTakerOrder, handleMakerOrder, takerWalk, blockchainSuccess,
    oppositeSide, priceCrosses, mkTrade, limitOrder]

/-- The walk never lengthens the side it walks. -/
theorem takerWalk_side_length (t : Order) (side : List Order) (rem : Nat) (acc : List Trade) :
    (takerWalk true t rem side acc).bookSide.length ≤ side.length := by
  obtain ⟨pre, post, hsplit, _, _, _, hres⟩ := takerWalk_shape t side rem acc
  rcases hres with ⟨hw, _⟩ | ⟨mk, post1, hp, _, _, _, hw⟩
  · rw [hw, hsplit]; simp
  · rw [hw, hsplit, hp]; simp

/-! ## The claims -/

/-- C1. Start from the empty map of books and make any finite sequence of `processOrder`
calls.  After the last call (so after every call, the sequence being arbitrary) the book of
every market has an empty side, or its best bid is priced strictly below its best ask. -/
theorem processOrder_never_crossed (orders : List Order) (marketId : String) (book : Book)
    (h : processAll emptyBooks orders marketId = some book) :
    Uncrossed book :=
  (processAll_inv orders emptyBooks (fun _ _ hb => by simp [emptyBooks] at hb)
    marketId book h).uncrossed

/-- After A sells 10 at 100, B buys 4 at 100 and C bids 3 at 99, market M holds the bid of 3
at 99 and the ask of 6 at 100, and is not crossed. -/
theorem processOrder_never_crossed_witness :
    processAll emptyBooks session "M" =
        some { bids := [limitOrder "C" true 3 99], asks := [limitOrder "A" false 6 100] } ∧
      Uncrossed { bids := [limitOrder "C" true 3 99], asks := [limitOrder "A" false 6 100] } :=
  ⟨processAll_session, processOrder_never_crossed session "M" _ processAll_session⟩

/-- C2. Maker orders of one side are inserted one after the other into an empty book with
`handleMakerOrder`, with any natural-number prices (so any unsigned 128-bit prices).  After
each insertion, that is after the first `n` orders for every `n`, the side is sorted by price
(bids non-increasing, asks non-decreasing), and at every price the resting orders of that
price are exactly the inserted orders of that price, in the order of insertion. -/
theorem handleMakerOrder_sorted_stable (isLong : Bool) (orders : List Order)
    (h : ∀ o ∈ orders, o.isLong = isLong) (n : Nat) :
    (isLong = true →
      BidsSorted (insertMakers emptyBook (orders.take n)).bids ∧
      ∀ price, atPrice price (insertMakers emptyBook (orders.take n)).bids =
        atPrice price (orders.take n)) ∧
    (isLong = false →
      AsksSorted (insertMakers emptyBook (orders.take n)).asks ∧
      ∀ price, atPrice price (insertMakers emptyBook (orders.take n)).asks =
        atPrice price (orders.take n)) := by
  have hn : ∀ o ∈ orders.take n, o.isLong = isLong :=
    fun o ho => h o (List.mem_of_mem_take ho)
  constructor
  · intro hl
    subst hl
    exact ⟨(insertMakers_bids _ hn).1, (insertMakers_bids _ hn).2.2⟩
  · intro hl
    subst hl
    exact ⟨(insertMakers_asks _ hn).1, (insertMakers_asks _ hn).2.2⟩

/-- Bids 8 at 100 from X, 1 at 105 from Z, 5 at 100 from Y, 2 at 105 from W: after the first
three insertions the bids are Z, X, Y, and after all four they are Z, W, X, Y. -/
theorem handleMakerOrder_sorted_stable_witness :
    (∀ o ∈ stackedBids, o.isLong = true) ∧
    (insertMakers emptyBook (stackedBids.take 3)).bids =
      [limitOrder "Z" true 1 105, limitOrder "X" true 8 100, limitOrder "Y" true 5 100] ∧
    (insertMakers emptyBook stackedBids).bids =
      [limitOrder "Z" true 1 105, limitOrder "W" true 2 105, limitOrder "X" true 8 100,
        limitOrder "Y" true 5 100] ∧
    ((true = true →
      BidsSorted (insertMakers emptyBook (stackedBids.take 3)).bids ∧
      ∀ price, atPrice price (insertMakers emptyBook (stackedBids.take 3)).bids =
        atPrice price (stackedBids.take 3)) ∧
    (true = false →
      AsksSorted (insertMakers emptyBook (stackedBids.take 3)).asks ∧
      ∀ price, atPrice price (insertMakers emptyBook (stackedBids.take 3)).asks =
        atPrice price (stackedBids.take 3))) :=
  ⟨by decide, by decide, by decide,
    handleMakerOrder_sorted_stable true stackedBids (by decide) 3⟩

/-- C3. The sizes of the trades `handleTakerOrder` returns and the size `rem` that is left of
the taker add up to the taker's `baseSize`; when `rem` is positive the taker rests with size
`rem` as the one order added to its own side, and when `rem` is zero nothing is added. -/
theorem handleTakerOrder_conservation (takerOrder : Order) (book : Book) :
    ∃ trades rem, (handleTakerOrder takerOrder book).2.trades = some trades ∧
      tradeSizeSum trades + rem = takerOrder.baseSize ∧
      (0 < rem → (ownSide takerOrder (handleTakerOrder takerOrder book).1).Perm
        (ownSide takerOrder book ++ [restOf takerOrder rem])) ∧
      (rem = 0 → ownSide takerOrder (handleTakerOrder takerOrder book).1 =
        ownSide takerOrder book) := by
  refine ⟨(walkOf takerOrder book).trades, (walkOf takerOrder book).remainingSize, rfl,
    walkOf_conservation takerOrder book, ?_, ?_⟩
  · intro h
    rw [handleTakerOrder_own, if_pos h]
    exact arraySort_perm _ _
  · intro h
    rw [handleTakerOrder_own, if_neg (by omega)]

/-- C4. `processOrder` takes the taker path exactly when the order is a buy and the asks have
a front order priced at or below it, or the order is a sell and the bids have a front order
priced at or above it; in every other case it takes the maker path.  The two paths are told
apart by their outcome message, and an order priced exactly at the best opposite price is a
taker. -/
theorem processOrder_classification (orderBooks : OrderBooks) (order : Order) :
    (isTaker order (bookFor orderBooks order.marketId) = true ↔
      ((order.isLong = true ∧ ∃ bestAsk rest,
          (bookFor orderBooks order.marketId).asks = bestAsk :: rest ∧
          order.priceX18 ≥ bestAsk.priceX18) ∨
        (order.isLong = false ∧ ∃ bestBid rest,
          (bookFor orderBooks order.marketId).bids = bestBid :: rest ∧
          order.priceX18 ≤ bestBid.priceX18))) ∧
    (isTaker order (bookFor orderBooks order.marketId) = true →
      processOrder orderBooks order =
        (orderBooks.set order.marketId
            (handleTakerOrder order (bookFor orderBooks order.marketId)).1,
          (handleTakerOrder order (bookFor orderBooks order.marketId)).2)) ∧
    (isTaker order (bookFor orderBooks order.marketId) = false →
      processOrder orderBooks order =
        (orderBooks.set order.marketId
            (handleMakerOrder order (bookFor orderBooks order.marketId)).1,
          (handleMakerOrder order (bookFor orderBooks order.marketId)).2)) ∧
    ((processOrder orderBooks order).2.message = "Trade executed." ↔
      isTaker order (bookFor orderBooks order.marketId) = true) ∧
    (∀ best rest, oppositeSide order (bookFor orderBooks order.marketId) = best :: rest →
      order.priceX18 = best.priceX18 →
      isTaker order (bookFor orderBooks order.marketId) = true) := by
  refine ⟨isTaker_iff _ _, ?_, ?_, ?_, ?_⟩
  · intro h
    exact processOrder_taker orderBooks order ((isTaker_iff _ _).mp h)
  · intro h
    exact processOrder_maker orderBooks order ((isTaker_false_iff _ _).mp h)
  · cases hx : isTaker order (bookFor orderBooks order.marketId) <;>
      simp [processOrder, hx, handleTakerOrder, handleMakerOrder]
  · intro best rest hside hprice
    unfold oppositeSide at hside
    unfold isTaker
    cases hl : order.isLong <;> simp [hl] at hside ⊢ <;> simp [hside, hprice]

/-- C5. On a sorted opposite side with positive sizes the walk matches the makers in book
order, best price first and, at equal price, the earlier maker first: the side is
`pre ++ post`, every maker of `pre` is traded for its whole size, in order, and either the
opposite side is left as `post`, or the front maker `mk` of `post` is traded for a part `f`
of its size and stays in front of the rest with its size reduced by `f`.  Every trade has a
positive size, and the trade prices run from the best price on. -/
theorem handleTakerOrder_book_order (takerOrder : Order) (book : Book)
    (hsorted : if takerOrder.isLong then AsksSorted book.asks else BidsSorted book.bids)
    (hpos : ∀ m ∈ oppositeSide takerOrder book, 0 < m.baseSize) :
    ∃ pre post trades, oppositeSide takerOrder book = pre ++ post ∧
      (handleTakerOrder takerOrder book).2.trades = some trades ∧
      (∀ tr ∈ trades, 0 < tr.size) ∧
      trades.map (fun tr => tr.maker) =
        (List.take trades.length (oppositeSide takerOrder book)).map (fun m => m.maker) ∧
      (if takerOrder.isLong then (trades.map (fun tr => tr.price)).Pairwise (fun p q => p ≤ q)
        else (trades.map (fun tr => tr.price)).Pairwise (fun p q => p ≥ q)) ∧
      ((trades = fullTrades takerOrder pre ∧
          oppositeSide takerOrder (handleTakerOrder takerOrder book).1 = post) ∨
        (∃ mk post1 f, post = mk :: post1 ∧ 0 < f ∧ f < mk.baseSize ∧
          trades = fullTrades takerOrder pre ++ [mkTrade takerOrder mk f] ∧
          oppositeSide takerOrder (handleTakerOrder takerOrder book).1 =
            { mk with baseSize := mk.baseSize - f } :: post1)) := by
  obtain ⟨pre, post, hsplit, _, _, _, hres⟩ :=
    takerWalk_shape takerOrder (oppositeSide takerOrder book) takerOrder.baseSize []
  have hpre : ∀ m ∈ pre, 0 < m.baseSize := fun m hm =>
    hpos m (by rw [hsplit]; exact List.mem_append_left _ hm)
  have hmk : (fullTrades takerOrder pre).map (fun tr => tr.maker) =
      pre.map (fun m => m.maker) := by
    simp [fullTrades, mkTrade]
  have hpr : (fullTrades takerOrder pre).map (fun tr => tr.price) =
      pre.map (fun m => m.priceX18) := by
    simp [fullTrades, mkTrade]
  have hprices : ∀ trades : List Trade,
      trades.map (fun tr => tr.price) =
        (List.take trades.length (oppositeSide takerOrder book)).map (fun m => m.priceX18) →
      (if takerOrder.isLong then (trades.map (fun tr => tr.price)).Pairwise (fun p q => p ≤ q)
        else (trades.map (fun tr => tr.price)).Pairwise (fun p q => p ≥ q)) := by
    intro trades heq
    have hs := sorted_take_prices takerOrder.isLong book trades.length hsorted
    rw [heq]
    unfold oppositeSide
    cases hl : takerOrder.isLong <;> simpa [hl] using hs
  rw [handleTakerOrder_opposite, handleTakerOrder_outcome]
  unfold walkOf blockchainSuccess
  rcases hres with ⟨hw, _⟩ | ⟨mk, post1, hp, _, h0, hlt, hw⟩
  · refine ⟨pre, post, fullTrades takerOrder pre, hsplit, by rw [hw]; rfl,
      fullTrades_pos takerOrder pre hpre, ?_, hprices _ ?_, Or.inl ⟨rfl, by rw [hw]⟩⟩
    · rw [hmk, hsplit]
      simp [fullTrades]
    · rw [hpr, hsplit]
      simp [fullTrades]
  · have hlen : (fullTrades takerOrder pre ++
        [mkTrade takerOrder mk (takerOrder.baseSize - sizeSum pre)]).length =
        pre.length + 1 := by simp [fullTrades]
    refine ⟨pre, post, fullTrades takerOrder pre ++
        [mkTrade takerOrder mk (takerOrder.baseSize - sizeSum pre)], hsplit,
      by rw [hw]; simp, ?_, ?_, hprices _ ?_, Or.inr ⟨mk, post1, _, hp, h0, hlt, rfl, by rw [hw]⟩⟩
    · intro tr htr
      rcases List.mem_append.mp htr with h | h
      · exact fullTrades_pos takerOrder pre hpre tr h
      · simp only [List.mem_singleton] at h
        subst h
        exact h0
    · rw [List.map_append, hmk, hsplit, hp, hlen]
      simp [mkTrade, List.take_append_eq_append_take]
    · rw [List.map_append, hpr, hsplit, hp, hlen]
      simp [mkTrade, List.take_append_eq_append_take]

/-- Scenario E: bids 8 at 100 from X, then 5 at 100 from Y; a sell of 10 at 100 trades 8
against X, then 2 against Y, and leaves Y resting with 3. -/
theorem handleTakerOrder_book_order_witness :
    (if sellE.isLong then AsksSorted bookE.asks else BidsSorted bookE.bids) ∧
    (∀ m ∈ oppositeSide sellE bookE, 0 < m.baseSize) ∧
    handleTakerOrder sellE bookE =
      ({ bids := [limitOrder "Y" true 3 100], asks := [] },
        { success := true, message := "Trade executed.",
          trades := some [{ marketId := "M", price := 100, size := 8, taker := "T", maker := "X" },
            { marketId := "M", price := 100, size := 2, taker := "T", maker := "Y" }] }) ∧
    ∃ pre post trades, oppositeSide sellE bookE = pre ++ post ∧
      (handleTakerOrder sellE bookE).2.trades = some trades ∧
      (∀ tr ∈ trades, 0 < tr.size) ∧
      trades.map (fun tr => tr.maker) =
        (List.take trades.length (oppositeSide sellE bookE)).map (fun m => m.maker) ∧
      (if sellE.isLong then (trades.map (fun tr => tr.price)).Pairwise (fun p q => p ≤ q)
        else (trades.map (fun tr => tr.price)).Pairwise (fun p q => p ≥ q)) ∧
      ((trades = fullTrades sellE pre ∧
          oppositeSide sellE (handleTakerOrder sellE bookE).1 = post) ∨
        (∃ mk post1 f, post = mk :: post1 ∧ 0 < f ∧ f < mk.baseSize ∧
          trades = fullTrades sellE pre ++ [mkTrade sellE mk f] ∧
          oppositeSide sellE (handleTakerOrder sellE bookE).1 =
            { mk with baseSize := mk.baseSize - f } :: post1)) :=
  ⟨by decide, by decide, handleTakerOrder_bookE,
    handleTakerOrder_book_order sellE bookE (by decide) (by decide)⟩

/-- C6. The `i`-th trade of `handleTakerOrder` is matched against the `i`-th resting order `m`
of the opposite side: its price is `m.priceX18`, its maker is `m.maker`, its taker is the
incoming order's `maker`, its market is the incoming order's `marketId`, and its size is the
fill size of the pairing, the smaller of what is left of the taker at that point and
`m.baseSize`. -/
theorem handleTakerOrder_trade_fields (takerOrder : Order) (book : Book)
    (trades : List Trade) (i : Nat) (tr : Trade)
    (htrades : (handleTakerOrder takerOrder book).2.trades = some trades)
    (hi : trades[i]? = some tr) :
    ∃ m, (oppositeSide takerOrder book)[i]? = some m ∧
      tr.price = m.priceX18 ∧
      tr.size = min (takerOrder.baseSize - tradeSizeSum (trades.take i)) m.baseSize ∧
      tr.taker = takerOrder.maker ∧
      tr.maker = m.maker ∧
      tr.marketId = takerOrder.marketId := by
  obtain ⟨pre, post, hsplit, _, hsum, _, hres⟩ :=
    takerWalk_shape takerOrder (oppositeSide takerOrder book) takerOrder.baseSize []
  rw [handleTakerOrder_outcome] at htrades
  simp only [Option.some.injEq, walkOf, blockchainSuccess] at htrades
  have hfull : ∀ j trj, (fullTrades takerOrder pre)[j]? = some trj →
      ∃ m, (oppositeSide takerOrder book)[j]? = some m ∧
        trj = mkTrade takerOrder m m.baseSize ∧
        sizeSum (pre.take j) + m.baseSize ≤ takerOrder.baseSize := by
    intro j trj hj
    rw [fullTrades_getElem_at] at hj
    cases hm : pre[j]? with
    | none => simp [hm] at hj
    | some m =>
      simp only [hm, Option.map_some', Option.some.injEq] at hj
      have hlt : j < pre.length := (List.getElem?_eq_some_iff.mp hm).1
      refine ⟨m, ?_, hj.symm, ?_⟩
      · rw [hsplit, List.getElem?_append_left hlt, hm]
      · have := sizeSum_take_le pre j m hm
        omega
  rcases hres with ⟨hw, _⟩ | ⟨mk, post1, hp, _, h0, hlt, hw⟩
  · rw [hw] at htrades
    simp only [List.nil_append] at htrades
    subst htrades
    obtain ⟨m, hm, htr, hle⟩ := hfull i tr hi
    refine ⟨m, hm, by rw [htr]; rfl, ?_, by rw [htr]; rfl, by rw [htr]; rfl, by rw [htr]; rfl⟩
    rw [fullTrades_take, tradeSizeSum_fullTrades, htr]
    simp only [mkTrade]
    omega
  · rw [hw] at htrades
    simp only [List.nil_append] at htrades
    subst htrades
    by_cases hlt2 : i < pre.length
    · rw [List.getElem?_append_left (by rw [fullTrades_length]; exact hlt2)] at hi
      obtain ⟨m, hm, htr, hle⟩ := hfull i tr hi
      refine ⟨m, hm, by rw [htr]; rfl, ?_, by rw [htr]; rfl, by rw [htr]; rfl, by rw [htr]; rfl⟩
      rw [List.take_append_of_le_length (by rw [fullTrades_length]; omega), fullTrades_take,
        tradeSizeSum_fullTrades, htr]
      simp only [mkTrade]
      omega
    · have hge : pre.length ≤ i := by omega
      rw [List.getElem?_append_right (by rw [fullTrades_length]; exact hge),
        fullTrades_length] at hi
      have hi0 : i - pre.length = 0 := by
        by_contra hne
        have : 1 ≤ i - pre.length := by omega
        rw [List.getElem?_eq_none (by simpa using this)] at hi
        exact Option.noConfusion hi
      have hieq : i = pre.length := by omega
      rw [hi0] at hi
      simp only [List.getElem?_cons_zero, Option.some.injEq] at hi
      refine ⟨mk, ?_, by rw [← hi]; rfl, ?_, by rw [← hi]; rfl, by rw [← hi]; rfl,
        by rw [← hi]; rfl⟩
      · rw [hsplit, hp, hieq, List.getElem?_append_right (le_refl _)]
        simp
      · rw [hieq, List.take_left' (fullTrades_length _ _), tradeSizeSum_fullTrades, ← hi]
        simp only [mkTrade]
        omega

/-- Scenario E, second trade: it is matched against Y, the second bid, at Y's price 100, for
the smaller of the 2 left of the taker and Y's 5. -/
theorem handleTakerOrder_trade_fields_witness :
    (handleTakerOrder sellE bookE).2.trades =
        some [{ marketId := "M", price := 100, size := 8, taker := "T", maker := "X" },
          { marketId := "M", price := 100, size := 2, taker := "T", maker := "Y" }] ∧
      ∃ m, (oppositeSide sellE bookE)[1]? = some m ∧
        m = limitOrder "Y" true 5 100 ∧
        (100 : Nat) = m.priceX18 ∧
        (2 : Nat) = min (sellE.baseSize - tradeSizeSum
          (List.take 1
            [({ marketId := "M", price := 100, size := 8, taker := "T", maker := "X" } : Trade),
              { marketId := "M", price := 100, size := 2, taker := "T", maker := "Y" }]))
          m.baseSize ∧
        "T" = sellE.maker ∧ "Y" = m.maker ∧ "M" = sellE.marketId := by
  have h := handleTakerOrder_trade_fields sellE bookE _ 1
    { marketId := "M", price := 100, size := 2, taker := "T", maker := "Y" }
    (by rw [handleTakerOrder_bookE]) rfl
  obtain ⟨m, hm, h1, h2, h3, h4, h5⟩ := h
  refine ⟨by rw [handleTakerOrder_bookE], m, hm, ?_, h1, h2, h3, h4, h5⟩
  have hY : (oppositeSide sellE bookE)[1]? = some (limitOrder "Y" true 5 100) := by decide
  rw [hY] at hm
  exact (Option.some.inj hm).symm

/-- C7. When a taker is left with a positive remainder after the walk (its `baseSize` less
the sizes of its trades), `processOrder` adds exactly one order to the taker's own side: the
taker itself at its own price with `baseSize` equal to the remainder, placed after every
order of that price that was already resting.  When the remainder is zero the taker's own
side is unchanged. -/
theorem processOrder_resting_remainder (orderBooks : OrderBooks) (order : Order)
    (htaker : CrossesBestOpposite order (bookFor orderBooks order.marketId)) :
    ∃ book1 trades, (processOrder orderBooks order).1 order.marketId = some book1 ∧
      (processOrder orderBooks order).2.trades = some trades ∧
      (0 < order.baseSize - tradeSizeSum trades →
        (ownSide order book1).Perm (ownSide order (bookFor orderBooks order.marketId) ++
          [restOf order (order.baseSize - tradeSizeSum trades)]) ∧
        atPrice order.priceX18 (ownSide order book1) =
          atPrice order.priceX18 (ownSide order (bookFor orderBooks order.marketId)) ++
            [restOf order (order.baseSize - tradeSizeSum trades)] ∧
        (restOf order (order.baseSize - tradeSizeSum trades)).priceX18 = order.priceX18 ∧
        (restOf order (order.baseSize - tradeSizeSum trades)).baseSize =
          order.baseSize - tradeSizeSum trades) ∧
      (order.baseSize - tradeSizeSum trades = 0 →
        ownSide order book1 = ownSide order (bookFor orderBooks order.marketId)) := by
  rw [processOrder_taker orderBooks order htaker]
  refine ⟨_, (walkOf order (bookFor orderBooks order.marketId)).trades, set_same _ _ _, rfl,
    ?_, ?_⟩
  · intro hpos
    rw [← walkOf_remaining] at hpos ⊢
    rw [handleTakerOrder_own, if_pos hpos]
    refine ⟨arraySort_perm _ _, ?_, rfl, rfl⟩
    rw [atPrice_arraySort_side, atPrice_append]
    simp [atPrice, restOf]
  · intro hzero
    rw [← walkOf_remaining] at hzero
    rw [handleTakerOrder_own, if_neg (by omega)]

/-- Scenario C: with the ask of 5 at 100 resting, the buy of 10 at 100 gives one trade of 5 at
100 and rests as a new bid of 5 at 100. -/
theorem processOrder_resting_remainder_witness :
    CrossesBestOpposite buyC (bookFor booksC buyC.marketId) ∧
    (processOrder booksC buyC).1 "M" =
      some { bids := [limitOrder "B" true 5 100], asks := [] } ∧
    (processOrder booksC buyC).2.trades =
      some [{ marketId := "M", price := 100, size := 5, taker := "B", maker := "A" }] ∧
    ∃ book1 trades, (processOrder booksC buyC).1 buyC.marketId = some book1 ∧
      (processOrder booksC buyC).2.trades = some trades ∧
      (0 < buyC.baseSize - tradeSizeSum trades →
        (ownSide buyC book1).Perm (ownSide buyC (bookFor booksC buyC.marketId) ++
          [restOf buyC (buyC.baseSize - tradeSizeSum trades)]) ∧
        atPrice buyC.priceX18 (ownSide buyC book1) =
          atPrice buyC.priceX18 (ownSide buyC (bookFor booksC buyC.marketId)) ++
            [restOf buyC (buyC.baseSize - tradeSizeSum trades)] ∧
        (restOf buyC (buyC.baseSize - tradeSizeSum trades)).priceX18 = buyC.priceX18 ∧
        (restOf buyC (buyC.baseSize - tradeSizeSum trades)).baseSize =
          buyC.baseSize - tradeSizeSum trades) ∧
      (buyC.baseSize - tradeSizeSum trades = 0 →
        ownSide buyC book1 = ownSide buyC (bookFor booksC buyC.marketId)) :=
  ⟨booksC_crosses, processOrder_booksC.1, by rw [processOrder_booksC.2],
    processOrder_resting_remainder booksC buyC booksC_crosses⟩

/-- C8. An order that does not cross the best opposite price (or finds the opposite side
empty) is added to its own side and nothing else is: the own side becomes the sorted own side
with that one order pushed, a rearrangement of the old orders and the new one; the opposite
side is unchanged; the outcome reports success and carries no trades. -/
theorem processOrder_maker_path (orderBooks : OrderBooks) (order : Order)
    (h : ¬ CrossesBestOpposite order (bookFor orderBooks order.marketId)) :
    ∃ book1, (processOrder orderBooks order).1 order.marketId = some book1 ∧
      (ownSide order book1).Perm (ownSide order (bookFor orderBooks order.marketId) ++ [order]) ∧
      oppositeSide order book1 = oppositeSide order (bookFor orderBooks order.marketId) ∧
      (processOrder orderBooks order).2.trades = none ∧
      (processOrder orderBooks order).2.success = true := by
  rw [processOrder_maker orderBooks order h]
  refine ⟨_, set_same _ _ _, ?_, ?_, rfl, rfl⟩
  · cases hl : order.isLong <;>
      simp only [handleMakerOrder, ownSide, hl, if_true, if_false, Bool.false_eq_true] <;>
      exact arraySort_perm _ _
  · cases hl : order.isLong <;> simp [handleMakerOrder, oppositeSide, hl]

/-- Scenario A: on the empty books a sell of 10 at 100 rests alone on the asks of its market,
the bids stay empty and no trade is reported. -/
theorem processOrder_maker_path_witness :
    ¬ CrossesBestOpposite sellA (bookFor emptyBooks sellA.marketId) ∧
    (processOrder emptyBooks sellA).1 "M" = some { bids := [], asks := [sellA] } ∧
    (processOrder emptyBooks sellA).2 =
      { success := true, message := "Order placed on book.", trades := none } ∧
    ∃ book1, (processOrder emptyBooks sellA).1 sellA.marketId = some book1 ∧
      (ownSide sellA book1).Perm (ownSide sellA (bookFor emptyBooks sellA.marketId) ++ [sellA]) ∧
      oppositeSide sellA book1 = oppositeSide sellA (bookFor emptyBooks sellA.marketId) ∧
      (processOrder emptyBooks sellA).2.trades = none ∧
      (processOrder emptyBooks sellA).2.success = true :=
  ⟨sellA_not_crossing, by decide, by decide,
    processOrder_maker_path emptyBooks sellA sellA_not_crossing⟩

/-- C9, as the code has it.  The outcome of `processOrder` always carries `success = true`; on
the taker path it carries the list of the trades the walk produced, on the maker path it
carries no trades list at all. -/
theorem processOrder_outcome_record (orderBooks : OrderBooks) (order : Order) :
    (processOrder orderBooks order).2.success = true ∧
    (CrossesBestOpposite order (bookFor orderBooks order.marketId) →
      (processOrder orderBooks order).2.trades =
        some (takerWalk blockchainSuccess order order.baseSize
          (oppositeSide order (bookFor orderBooks order.marketId)) []).trades) ∧
    (¬ CrossesBestOpposite order (bookFor orderBooks order.marketId) →
      (processOrder orderBooks order).2.trades = none) := by
  refine ⟨?_, ?_, ?_⟩
  · cases hx : isTaker order (bookFor orderBooks order.marketId) <;>
      simp [processOrder, hx, handleTakerOrder, handleMakerOrder]
  · intro h; rw [processOrder_taker orderBooks order h]; rfl
  · intro h; rw [processOrder_maker orderBooks order h]; rfl

/-- C9 as stated fails: the sell of 10 at 100 on the empty books goes down the maker path and
its outcome has no trades list, so the list is not "present and empty". -/
theorem processOrder_maker_outcome_has_no_trades :
    (processOrder emptyBooks sellA).2.message = "Order placed on book." ∧
      ¬ ((processOrder emptyBooks sellA).2.trades = some []) :=
  ⟨by decide, by decide⟩

/-- C10. A taker of positive size against a book of positive resting sizes is answered with
`success = true` and a non-empty trade list, whose first trade has a positive size, whether
or not a remainder of the taker is left resting. -/
theorem processOrder_taker_reports_trades (orderBooks : OrderBooks) (order : Order)
    (hsize : 0 < order.baseSize)
    (htaker : CrossesBestOpposite order (bookFor orderBooks order.marketId))
    (hpos : ∀ m ∈ (bookFor orderBooks order.marketId).bids ++
        (bookFor orderBooks order.marketId).asks, 0 < m.baseSize) :
    (processOrder orderBooks order).2.success = true ∧
      ∃ tr trs, (processOrder orderBooks order).2.trades = some (tr :: trs) ∧ 0 < tr.size := by
  rw [processOrder_taker orderBooks order htaker]
  obtain ⟨best, rest, hside, hc⟩ := crossesBest_front order _ htaker
  obtain ⟨trs, htr⟩ := first_trade order best rest hsize hc
  refine ⟨rfl, mkTrade order best (min order.baseSize best.baseSize), trs, ?_, ?_⟩
  · simp only [handleTakerOrder, hside, blockchainSuccess, htr]
  · have hb : 0 < best.baseSize := by
      apply hpos
      have : best ∈ oppositeSide order (bookFor orderBooks order.marketId) := by
        rw [hside]; exact List.mem_cons_self _ _
      unfold oppositeSide at this
      split at this <;> simp [this]
    simp only [mkTrade]
    omega

/-- Scenario C again: the buy of 10 at 100 is only filled for 5 and its remainder rests, and
the outcome still reports success with the one trade of 5. -/
theorem processOrder_taker_reports_trades_witness :
    0 < buyC.baseSize ∧ CrossesBestOpposite buyC (bookFor booksC buyC.marketId) ∧
    (∀ m ∈ (bookFor booksC buyC.marketId).bids ++ (bookFor booksC buyC.marketId).asks,
      0 < m.baseSize) ∧
    (processOrder booksC buyC).2 =
      { success := true, message := "Trade executed.",
        trades := some
          [{ marketId := "M", price := 100, size := 5, taker := "B", maker := "A" }] } ∧
    (processOrder booksC buyC).1 "M" =
      some { bids := [limitOrder "B" true 5 100], asks := [] } ∧
    (processOrder booksC buyC).2.success = true ∧
    ∃ tr trs, (processOrder booksC buyC).2.trades = some (tr :: trs) ∧ 0 < tr.size :=
  ⟨by decide, booksC_crosses, by rw [booksC_book]; decide, processOrder_booksC.2,
    processOrder_booksC.1,
    processOrder_taker_reports_trades booksC buyC (by decide) booksC_crosses
      (by rw [booksC_book]; decide)⟩

/-- C11. In every iteration of the walk the fill size is the minimum of the taker's remaining
size and the front maker's `baseSize`, in exact natural-number arithmetic; and when the taker
and all resting orders of the walked side have positive sizes, the `i`-th trade has that
minimum as its size, which is at least 1 and at most either operand. -/
theorem takerWalk_fill_size (takerOrder : Order) (book : Book) :
    (∀ rem m rest acc, 0 < rem → priceCrosses takerOrder m = true →
      takerWalk blockchainSuccess takerOrder rem (m :: rest) acc =
        takerWalk blockchainSuccess takerOrder (rem - min rem m.baseSize)
          (if m.baseSize - min rem m.baseSize = 0 then rest
            else { m with baseSize := m.baseSize - min rem m.baseSize } :: rest)
          (acc ++ [mkTrade takerOrder m (min rem m.baseSize)])) ∧
    (0 < takerOrder.baseSize → (∀ m ∈ oppositeSide takerOrder book, 0 < m.baseSize) →
      ∀ trades i tr, (handleTakerOrder takerOrder book).2.trades = some trades →
        trades[i]? = some tr →
        ∃ m, (oppositeSide takerOrder book)[i]? = some m ∧
          tr.size = min (takerOrder.baseSize - tradeSizeSum (trades.take i)) m.baseSize ∧
          1 ≤ tr.size ∧
          tr.size ≤ takerOrder.baseSize - tradeSizeSum (trades.take i) ∧
          tr.size ≤ m.baseSize) := by
  constructor
  · intro rem m rest acc hpos hc
    exact takerWalk_iteration takerOrder m rem rest acc hpos hc
  · intro _ hpos trades i tr htrades hi
    rw [handleTakerOrder_outcome] at htrades
    simp only [Option.some.injEq] at htrades
    subst htrades
    obtain ⟨m, hm, htr, hcase⟩ := walkOf_trade_at takerOrder book i tr hi
    have hmpos : 0 < m.baseSize := hpos m (List.getElem?_mem hm)
    have hsz : tr.size = min (takerOrder.baseSize -
        tradeSizeSum ((walkOf takerOrder book).trades.take i)) m.baseSize := by
      rw [htr]; rfl
    refine ⟨m, hm, hsz, ?_, ?_, ?_⟩
    · rw [hsz]
      rcases hcase with h | ⟨h0, _⟩
      · exact Nat.le_min.mpr ⟨by omega, hmpos⟩
      · exact Nat.le_min.mpr ⟨h0, hmpos⟩
    · rw [hsz]; exact Nat.min_le_left _ _
    · rw [hsz]; exact Nat.min_le_right _ _

/-- Scenario E, second trade: its size 2 is the smaller of the 2 left of the taker and the 5
of Y, at least 1 and at most either. -/
theorem takerWalk_fill_size_witness :
    0 < sellE.baseSize ∧ (∀ m ∈ oppositeSide sellE bookE, 0 < m.baseSize) ∧
    (handleTakerOrder sellE bookE).2.trades =
      some [{ marketId := "M", price := 100, size := 8, taker := "T", maker := "X" },
        { marketId := "M", price := 100, size := 2, taker := "T", maker := "Y" }] ∧
    ∃ m, (oppositeSide sellE bookE)[1]? = some m ∧
      (2 : Nat) = min (sellE.baseSize - tradeSizeSum
        (List.take 1
          [({ marketId := "M", price := 100, size := 8, taker := "T", maker := "X" } : Trade),
            { marketId := "M", price := 100, size := 2, taker := "T", maker := "Y" }]))
        m.baseSize ∧
      1 ≤ (2 : Nat) ∧
      (2 : Nat) ≤ sellE.baseSize - tradeSizeSum
        (List.take 1
          [({ marketId := "M", price := 100, size := 8, taker := "T", maker := "X" } : Trade),
            { marketId := "M", price := 100, size := 2, taker := "T", maker := "Y" }]) ∧
      (2 : Nat) ≤ m.baseSize :=
  ⟨by decide, by decide, by rw [handleTakerOrder_bookE],
    (takerWalk_fill_size sellE bookE).2 (by decide) (by decide) _ 1
      { marketId := "M", price := 100, size := 2, taker := "T", maker := "Y" }
      (by rw [handleTakerOrder_bookE]) rfl⟩

/-- C12. If every resting order of the book and the incoming order have positive sizes, then
after `processOrder` every resting order of the book has a positive size.  The makers `pre`
that left the opposite side are the ones traded for their whole size; what is left of that
side is the rest of it, order for order, with sizes that did not increase; and the own side
is unchanged or has gained only the incoming order with a positive size of at most its
`baseSize`. -/
theorem processOrder_positive_sizes (orderBooks : OrderBooks) (order : Order)
    (hpos : ∀ m ∈ (bookFor orderBooks order.marketId).bids ++
      (bookFor orderBooks order.marketId).asks, 0 < m.baseSize)
    (hsize : 0 < order.baseSize) :
    ∃ book1 pre post, (processOrder orderBooks order).1 order.marketId = some book1 ∧
      (∀ m ∈ book1.bids ++ book1.asks, 0 < m.baseSize) ∧
      oppositeSide order (bookFor orderBooks order.marketId) = pre ++ post ∧
      List.Forall₂ SameButFilled (oppositeSide order book1) post ∧
      (pre ≠ [] → ∃ more, (processOrder orderBooks order).2.trades =
        some (fullTrades order pre ++ more)) ∧
      (ownSide order book1 = ownSide order (bookFor orderBooks order.marketId) ∨
        ∃ r, 0 < r ∧ r ≤ order.baseSize ∧
          (ownSide order book1).Perm
            (ownSide order (bookFor orderBooks order.marketId) ++ [restOf order r])) := by
  have hown : ∀ m ∈ ownSide order (bookFor orderBooks order.marketId), 0 < m.baseSize :=
    fun m hm => hpos m ((mem_sides order _ m).mpr (Or.inl hm))
  have hopp : ∀ m ∈ oppositeSide order (bookFor orderBooks order.marketId), 0 < m.baseSize :=
    fun m hm => hpos m ((mem_sides order _ m).mpr (Or.inr hm))
  by_cases hc : CrossesBestOpposite order (bookFor orderBooks order.marketId)
  · rw [processOrder_taker orderBooks order hc]
    obtain ⟨pre, post, hsplit, hrel, ⟨more, hmore⟩, hkeep⟩ :=
      walkOf_sizes order (bookFor orderBooks order.marketId)
    have hrem := walkOf_conservation order (bookFor orderBooks order.marketId)
    refine ⟨_, pre, post, set_same _ _ _, ?_, hsplit, ?_, ?_, ?_⟩
    · intro m hm
      rcases (mem_sides order _ m).mp hm with h | h
      · rw [handleTakerOrder_own] at h
        split at h
        · rename_i hr
          rw [mem_arraySort, List.mem_append, List.mem_singleton] at h
          rcases h with h | rfl
          · exact hown m h
          · exact hr
        · exact hown m h
      · rw [handleTakerOrder_opposite] at h
        exact hkeep hopp m h
    · rw [handleTakerOrder_opposite]; exact hrel
    · intro _
      exact ⟨more, by rw [handleTakerOrder_outcome, hmore]⟩
    · rw [handleTakerOrder_own]
      split
      · rename_i hr
        exact Or.inr ⟨_, hr, by omega, arraySort_perm _ _⟩
      · exact Or.inl rfl
  · rw [processOrder_maker orderBooks order hc]
    refine ⟨_, [], _, set_same _ _ _, ?_, rfl, ?_, fun h => absurd rfl h, ?_⟩
    · intro m hm
      rcases (mem_sides order _ m).mp hm with h | h
      · rw [handleMakerOrder_own, mem_arraySort, List.mem_append, List.mem_singleton] at h
        rcases h with h | rfl
        · exact hown m h
        · exact hsize
      · rw [handleMakerOrder_opposite] at h
        exact hopp m h
    · rw [handleMakerOrder_opposite]
      exact sameButFilled_list_refl _
    · rw [handleMakerOrder_own]
      exact Or.inr ⟨order.baseSize, hsize, le_refl _, arraySort_perm _ _⟩

/-- Scenario B: with the ask of 10 at 100 resting, the buy of 10 at 100 gives one trade of 10
at 100 and leaves the asks empty. -/
theorem processOrder_positive_sizes_witness :
    (∀ m ∈ (bookFor booksB buyD.marketId).bids ++ (bookFor booksB buyD.marketId).asks,
      0 < m.baseSize) ∧
    0 < buyD.baseSize ∧
    (processOrder booksB buyD).1 "M" = some { bids := [], asks := [] } ∧
    (processOrder booksB buyD).2.trades =
      some [{ marketId := "M", price := 100, size := 10, taker := "B", maker := "A" }] ∧
    ∃ book1 pre post, (processOrder booksB buyD).1 buyD.marketId = some book1 ∧
      (∀ m ∈ book1.bids ++ book1.asks, 0 < m.baseSize) ∧
      oppositeSide buyD (bookFor booksB buyD.marketId) = pre ++ post ∧
      List.Forall₂ SameButFilled (oppositeSide buyD book1) post ∧
      (pre ≠ [] → ∃ more, (processOrder booksB buyD).2.trades =
        some (fullTrades buyD pre ++ more)) ∧
      (ownSide buyD book1 = ownSide buyD (bookFor booksB buyD.marketId) ∨
        ∃ r, 0 < r ∧ r ≤ buyD.baseSize ∧
          (ownSide buyD book1).Perm
            (ownSide buyD (bookFor booksB buyD.marketId) ++ [restOf buyD r])) :=
  ⟨by rw [booksB_book]; decide, by decide, processOrder_booksB.1,
    by rw [processOrder_booksB.2],
    processOrder_positive_sizes booksB buyD (by rw [booksB_book]; decide) (by decide)⟩

/-- C13, as the code has it.  The settlement result of every pairing is the constant
`blockchainSuccess = true`, so the walk never removes a resting order without a trade: the
orders `pre` that leave the opposite side are each traded for their whole size, the rest of
the side stays order for order, and the number of orders gone is at most the number of
trades. -/
theorem handleTakerOrder_removes_only_traded (takerOrder : Order) (book : Book) :
    blockchainSuccess = true ∧
    ∃ pre post trades, oppositeSide takerOrder book = pre ++ post ∧
      (handleTakerOrder takerOrder book).2.trades = some trades ∧
      (∃ more, trades = fullTrades takerOrder pre ++ more) ∧
      List.Forall₂ SameButFilled (oppositeSide takerOrder (handleTakerOrder takerOrder book).1)
        post ∧
      (oppositeSide takerOrder book).length ≤
        (oppositeSide takerOrder (handleTakerOrder takerOrder book).1).length +
          trades.length := by
  refine ⟨rfl, ?_⟩
  obtain ⟨pre, post, hsplit, hrel, ⟨more, hmore⟩, _⟩ := walkOf_sizes takerOrder book
  refine ⟨pre, post, (walkOf takerOrder book).trades, hsplit, rfl, ⟨more, hmore⟩, ?_, ?_⟩
  · rw [handleTakerOrder_opposite]; exact hrel
  · rw [handleTakerOrder_opposite, hrel.length_eq, hmore, hsplit]
    simp only [List.length_append, fullTrades_length]
    omega

/-- C13 as stated fails on its own scenario: against the single ask of 10 at 100 the buy of
10 at 100 is settled, not rejected; the code returns one trade of 10 at 100 and leaves no
resting bid, where the claim has zero trades and a new resting bid of size 10. -/
theorem handleTakerOrder_scenarioD_trades :
    handleTakerOrder buyD bookD =
      ({ bids := [], asks := [] },
        { success := true, message := "Trade executed.",
          trades := some
            [{ marketId := "M", price := 100, size := 10, taker := "B", maker := "A" }] }) ∧
    ¬ ((handleTakerOrder buyD bookD).2.trades = some []) ∧
    ¬ ((handleTakerOrder buyD bookD).1.bids = [limitOrder "B" true 10 100]) := by
  rw [handleTakerOrder_bookD]
  decide

/-- C14, as the code has it.  No settlement can fail, so the walk is never aborted: a taker of
positive size that crosses the front order `m` trades against it; `m` leaves the side or
stays in front with a smaller size; the walk stops only with nothing left of the taker, an
empty opposite side or a front order that does not cross; and what is left of the taker,
if positive, rests as the one order added to its own side. -/
theorem handleTakerOrder_never_aborts (takerOrder m : Order) (rest : List Order) (book : Book)
    (hsize : 0 < takerOrder.baseSize)
    (hside : oppositeSide takerOrder book = m :: rest)
    (hc : priceCrosses takerOrder m = true) :
    ∃ trs, (handleTakerOrder takerOrder book).2.trades =
        some (mkTrade takerOrder m (min takerOrder.baseSize m.baseSize) :: trs) ∧
      ((oppositeSide takerOrder (handleTakerOrder takerOrder book).1).length ≤ rest.length ∨
        ∃ f, 0 < f ∧ f < m.baseSize ∧
          oppositeSide takerOrder (handleTakerOrder takerOrder book).1 =
            { m with baseSize := m.baseSize - f } :: rest) ∧
      (takerOrder.baseSize -
            tradeSizeSum (mkTrade takerOrder m (min takerOrder.baseSize m.baseSize) :: trs) = 0 ∨
        oppositeSide takerOrder (handleTakerOrder takerOrder book).1 = [] ∨
        ∃ front others,
          oppositeSide takerOrder (handleTakerOrder takerOrder book).1 = front :: others ∧
          priceCrosses takerOrder front = false) ∧
      (0 < takerOrder.baseSize -
            tradeSizeSum (mkTrade takerOrder m (min takerOrder.baseSize m.baseSize) :: trs) →
        (ownSide takerOrder (handleTakerOrder takerOrder book).1).Perm
          (ownSide takerOrder book ++ [restOf takerOrder (takerOrder.baseSize -
            tradeSizeSum
              (mkTrade takerOrder m (min takerOrder.baseSize m.baseSize) :: trs))])) := by
  obtain ⟨trs, htr⟩ := first_trade takerOrder m rest hsize hc
  have htr2 : (walkOf takerOrder book).trades =
      mkTrade takerOrder m (min takerOrder.baseSize m.baseSize) :: trs := by
    unfold walkOf blockchainSuccess; rw [hside, htr]
  have hrem := walkOf_remaining takerOrder book
  rw [htr2] at hrem
  refine ⟨trs, by rw [handleTakerOrder_outcome, htr2], ?_, ?_, ?_⟩
  · rw [handleTakerOrder_opposite]
    unfold walkOf blockchainSuccess
    rw [hside]
    by_cases hle : m.baseSize ≤ takerOrder.baseSize
    · left
      rw [takerWalk_full takerOrder m _ rest [] hsize hc hle]
      exact takerWalk_side_length _ _ _ _
    · right
      have hlt : takerOrder.baseSize < m.baseSize := by omega
      rw [takerWalk_short takerOrder m _ rest [] hsize hc hlt]
      exact ⟨takerOrder.baseSize, hsize, hlt, rfl⟩
  · rw [handleTakerOrder_opposite, ← hrem]
    exact walkOf_done takerOrder book
  · intro hpos
    rw [← hrem] at hpos ⊢
    rw [handleTakerOrder_own, if_pos hpos]
    exact arraySort_perm _ _

/-- Scenario E: the sell of 10 at 100 crosses the front bid of 8 from X, trades 8 against it
and goes on to Y; the walk stops with nothing left of the taker. -/
theorem handleTakerOrder_never_aborts_witness :
    0 < sellE.baseSize ∧
    oppositeSide sellE bookE = limitOrder "X" true 8 100 :: [limitOrder "Y" true 5 100] ∧
    priceCrosses sellE (limitOrder "X" true 8 100) = true ∧
    handleTakerOrder sellE bookE =
      ({ bids := [limitOrder "Y" true 3 100], asks := [] },
        { success := true, message := "Trade executed.",
          trades := some [{ marketId := "M", price := 100, size := 8, taker := "T", maker := "X" },
            { marketId := "M", price := 100, size := 2, taker := "T", maker := "Y" }] }) ∧
    ∃ trs, (handleTakerOrder sellE bookE).2.trades =
        some (mkTrade sellE (limitOrder "X" true 8 100)
          (min sellE.baseSize (limitOrder "X" true 8 100).baseSize) :: trs) :=
  ⟨by decide, by decide, by decide, handleTakerOrder_bookE,
    (handleTakerOrder_never_aborts sellE (limitOrder "X" true 8 100)
      [limitOrder "Y" true 5 100] bookE (by decide) (by decide) (by decide)).imp
      (fun _ h => h.1)⟩

/-- C14 as stated fails whatever becomes of the settlement: with the asks 10 at 100 from A and
5 at 100 from C, the buy of 10 at 100 produces a trade of 10 against A and A's order is gone
from the book, where the claim has no trade and A's order resting unchanged. -/
theorem handleTakerOrder_fills_front_maker :
    bookTwoAsks.asks = [limitOrder "A" false 10 100, limitOrder "C" false 5 100] ∧
    (handleTakerOrder buyD bookTwoAsks).2.trades =
      some [{ marketId := "M", price := 100, size := 10, taker := "B", maker := "A" }] ∧
    (handleTakerOrder buyD bookTwoAsks).1.asks = [limitOrder "C" false 5 100] ∧
    ¬ (limitOrder "A" false 10 100 ∈ (handleTakerOrder buyD bookTwoAsks).1.asks) ∧
    ¬ ((handleTakerOrder buyD bookTwoAsks).2.trades = some []) := by
  rw [handleTakerOrder_bookTwoAsks]
  decide

/-- C15, where the code departs from it.  A request that meets the three conditions of the
gate, with `expiry` zero but sent as the string `"0"`, is answered at any time after the
epoch with 400 "Order has expired": `order.expiry !== 0` holds for a string, and
`Date.now() / 1000 > "0"` holds.  `processOrder` is not called and the books are
unchanged. -/
theorem submitOrder_string_zero_expiry (verifyTypedData : Order → String → Option String)
    (nowMs : Nat) (orderBooks : OrderBooks) (req : OrderRequest)
    (hvalid : PassesValidation verifyTypedData nowMs req.order req.signature)
    (hzero : req.order.expiry = 0) (hstring : req.expirySentAsString = true)
    (hnow : 0 < nowMs) :
    submitOrder verifyTypedData nowMs orderBooks req =
      (orderBooks, { status := 400, error := some "Order has expired", result := none }) := by
  obtain ⟨⟨signer, hv, hs⟩, hsize, _⟩ := hvalid
  have h2 : ¬ req.order.baseSize ≤ 0 := by omega
  have h3 : expiryIsNotTheNumberZero req = true ∧
      (nowMs : ℚ) / 1000 > (req.order.expiry : ℚ) := by
    refine ⟨by simp [expiryIsNotTheNumberZero, hstring], ?_⟩
    rw [hzero]
    have : (0 : ℚ) < (nowMs : ℚ) := by exact_mod_cast hnow
    simp only [Nat.cast_zero, gt_iff_lt]
    positivity
  unfold submitOrder
  simp only [hv, hs, ne_eq, not_true_eq_false, if_false, h2, h3, and_self, if_true]

/-- The sell of 10 at 100 signed by `0xabcd`, with `expiry` sent as `"0"`, is rejected as
expired at the clock value 1700000000000; the same order with `expiry` sent as `0` is
processed and answered with 201. -/
theorem submitOrder_string_zero_expiry_witness :
    PassesValidation recoverABCD 1700000000000 requestStringExpiry.order
      requestStringExpiry.signature ∧
    requestStringExpiry.order.expiry = 0 ∧
    requestStringExpiry.expirySentAsString = true ∧
    0 < 1700000000000 ∧
    submitOrder recoverABCD 1700000000000 emptyBooks requestStringExpiry =
      (emptyBooks, { status := 400, error := some "Order has expired", result := none }) ∧
    submitOrder recoverABCD 1700000000000 emptyBooks requestNumberExpiry =
      ((processOrder emptyBooks sellAbcd).1,
        { status := 201, error := none, result := some (processOrder emptyBooks sellAbcd).2 }) :=
  ⟨sellAbcd_passes, rfl, rfl, by decide,
    submitOrder_string_zero_expiry recoverABCD 1700000000000 emptyBooks requestStringExpiry
      sellAbcd_passes rfl rfl (by decide),
    (submitOrder_number_expiry_gate recoverABCD 1700000000000 emptyBooks requestNumberExpiry
      rfl).1 sellAbcd_passes⟩

/-- C16, as the code has it.  `handleTakerOrder` takes no match time and reads no `expiry`:
when the taker has a positive size and the front order of the opposite side crosses, the
first trade is made against that front order, and it is the same trade whatever `expiry` the
front order carries, an expiry long past included. -/
theorem handleTakerOrder_ignores_expiry (takerOrder m : Order) (rest : List Order)
    (book : Book) (expiry : Nat)
    (hsize : 0 < takerOrder.baseSize)
    (hside : oppositeSide takerOrder book = { m with expiry := expiry } :: rest)
    (hc : priceCrosses takerOrder m = true) :
    ∃ trs, (handleTakerOrder takerOrder book).2.trades =
      some (mkTrade takerOrder m (min takerOrder.baseSize m.baseSize) :: trs) := by
  have hc2 : priceCrosses takerOrder { m with expiry := expiry } = true := hc
  obtain ⟨trs, htr⟩ := first_trade takerOrder { m with expiry := expiry } rest hsize hc2
  refine ⟨trs, ?_⟩
  rw [handleTakerOrder_outcome]
  unfold walkOf blockchainSuccess
  rw [hside, htr]
  rfl

/-- The ask of 10 at 100 carries the expiry 1, long past at any match time of today, and is
filled whole by a buy of 10 at 100. -/
theorem handleTakerOrder_ignores_expiry_witness :
    0 < buyD.baseSize ∧
    oppositeSide buyD bookExpired = { limitOrder "A" false 10 100 with expiry := 1 } :: [] ∧
    priceCrosses buyD (limitOrder "A" false 10 100) = true ∧
    ∃ trs, (handleTakerOrder buyD bookExpired).2.trades =
      some (mkTrade buyD (limitOrder "A" false 10 100)
        (min buyD.baseSize (limitOrder "A" false 10 100).baseSize) :: trs) :=
  ⟨by decide, by decide, by decide,
    handleTakerOrder_ignores_expiry buyD (limitOrder "A" false 10 100) [] bookExpired 1
      (by decide) (by decide) (by decide)⟩

/-- C16 as stated fails: the resting ask expired at time 1, and the buy of 10 at 100, matched
at any later time, trades 10 against it. -/
theorem handleTakerOrder_fills_expired_order :
    expiredAsk.expiry ≠ 0 ∧ expiredAsk.expiry < 1700000000 ∧
    bookExpired.asks = [expiredAsk] ∧
    (handleTakerOrder buyD bookExpired).2.trades =
      some [{ marketId := "M", price := 100, size := 10, taker := "B", maker := "A" }] ∧
    ¬ ((handleTakerOrder buyD bookExpired).2.trades = some []) := by
  rw [handleTakerOrder_bookExpired]
  decide

/-- C17. The taker walk is a total function, so it ends on every book and every taker order:
each iteration with a successful settlement either brings the remaining size to zero or
removes the front order, each iteration with a failed settlement removes the front order,
and the walk makes at most one trade per resting order.  When it has stopped, the remaining
size is zero, or the opposite side is empty, or its front order does not cross. -/
theorem takerWalk_terminates (takerOrder : Order) (book : Book) :
    (∀ rem m rest acc, 0 < rem → priceCrosses takerOrder m = true →
      ∃ rem1 side1 acc1,
        takerWalk true takerOrder rem (m :: rest) acc =
          takerWalk true takerOrder rem1 side1 acc1 ∧
        (rem1 = 0 ∨ side1 = rest)) ∧
    (∀ rem m rest acc, 0 < rem → priceCrosses takerOrder m = true →
      takerWalk false takerOrder rem (m :: rest) acc =
        takerWalk false takerOrder rem rest acc) ∧
    (walkOf takerOrder book).trades.length ≤ (oppositeSide takerOrder book).length ∧
    ((walkOf takerOrder book).remainingSize = 0 ∨
      (walkOf takerOrder book).bookSide = [] ∨
      ∃ m rest, (walkOf takerOrder book).bookSide = m :: rest ∧
        priceCrosses takerOrder m = false) := by
  refine ⟨?_, ?_, walkOf_trades_length takerOrder book, walkOf_done takerOrder book⟩
  · intro rem m rest acc hpos hc
    refine ⟨_, _, _, takerWalk_iteration takerOrder m rem rest acc hpos hc, ?_⟩
    by_cases hle : m.baseSize ≤ rem
    · right
      rw [Nat.min_eq_right hle, Nat.sub_self, if_pos rfl]
    · left
      rw [Nat.min_eq_left (by omega)]
      omega
  · intro rem m rest acc hpos hc
    exact takerWalk_reject takerOrder m rem rest acc hpos hc

/-- C18. If both sides of the order's book are sorted (bids by price non-increasing, asks by
price non-decreasing), then after `processOrder` both sides of that book are sorted, on the
maker path and on the taker path, whether or not a remainder of the taker rests. -/
theorem processOrder_keeps_sorted (orderBooks : OrderBooks) (order : Order)
    (hbids : BidsSorted (bookFor orderBooks order.marketId).bids)
    (hasks : AsksSorted (bookFor orderBooks order.marketId).asks) :
    ∃ book1, (processOrder orderBooks order).1 order.marketId = some book1 ∧
      BidsSorted book1.bids ∧ AsksSorted book1.asks ∧
      (isTaker order (bookFor orderBooks order.marketId) = true →
        book1 = (handleTakerOrder order (bookFor orderBooks order.marketId)).1) ∧
      (isTaker order (bookFor orderBooks order.marketId) = false →
        book1 = (handleMakerOrder order (bookFor orderBooks order.marketId)).1) := by
  have h : BothSorted (bookFor orderBooks order.marketId) := ⟨hbids, hasks⟩
  by_cases hc : CrossesBestOpposite order (bookFor orderBooks order.marketId)
  · rw [processOrder_taker orderBooks order hc]
    have hs := handleTakerOrder_sorted order _ h
    refine ⟨_, set_same _ _ _, hs.1, hs.2, fun _ => rfl, fun hf => ?_⟩
    rw [(isTaker_iff _ _).mpr hc] at hf
    exact absurd hf (by decide)
  · rw [processOrder_maker orderBooks order hc]
    have hs := handleMakerOrder_sorted order _ h
    refine ⟨_, set_same _ _ _, hs.1, hs.2, fun ht => ?_, fun _ => rfl⟩
    exact absurd ((isTaker_iff _ _).mp ht) hc

/-- Scenario C: the book with the ask of 5 at 100 is sorted, and after the buy of 10 at 100,
which trades 5 and rests with 5, both sides are sorted. -/
theorem processOrder_keeps_sorted_witness :
    BidsSorted (bookFor booksC buyC.marketId).bids ∧
    AsksSorted (bookFor booksC buyC.marketId).asks ∧
    (processOrder booksC buyC).1 "M" =
      some { bids := [limitOrder "B" true 5 100], asks := [] } ∧
    ∃ book1, (processOrder booksC buyC).1 buyC.marketId = some book1 ∧
      BidsSorted book1.bids ∧ AsksSorted book1.asks ∧
      (isTaker buyC (bookFor booksC buyC.marketId) = true →
        book1 = (handleTakerOrder buyC (bookFor booksC buyC.marketId)).1) ∧
      (isTaker buyC (bookFor booksC buyC.marketId) = false →
        book1 = (handleMakerOrder buyC (bookFor booksC buyC.marketId)).1) :=
  ⟨by rw [booksC_book]; decide, by rw [booksC_book]; decide, processOrder_booksC.1,
    processOrder_keeps_sorted booksC buyC (by rw [booksC_book]; decide)
      (by rw [booksC_book]; decide)⟩

/-- C19. `processOrder` works on the book of `order.marketId` alone: the entry of every other
market is the same before and after the call; the outcome and the new book of the market
depend on nothing but the old entry of that market; the market has a book afterwards, which
for a market without an entry is the empty book with the order placed on it; and every trade
carries `order.marketId`. -/
theorem processOrder_market_isolation (orderBooks : OrderBooks) (order : Order) :
    (∀ k, k ≠ order.marketId → (processOrder orderBooks order).1 k = orderBooks k) ∧
    (∀ orderBooks2 : OrderBooks, orderBooks2 order.marketId = orderBooks order.marketId →
      (processOrder orderBooks2 order).2 = (processOrder orderBooks order).2 ∧
      (processOrder orderBooks2 order).1 order.marketId =
        (processOrder orderBooks order).1 order.marketId) ∧
    (∃ book1, (processOrder orderBooks order).1 order.marketId = some book1) ∧
    (orderBooks order.marketId = none →
      (processOrder orderBooks order).1 order.marketId =
        some (handleMakerOrder order { bids := [], asks := [] }).1) ∧
    (∀ trades, (processOrder orderBooks order).2.trades = some trades →
      ∀ tr ∈ trades, tr.marketId = order.marketId) := by
  refine ⟨?_, ?_, ?_, ?_, ?_⟩
  · intro k hk
    exact set_other _ _ _ _ hk
  · intro orderBooks2 h2
    have hb : bookFor orderBooks2 order.marketId = bookFor orderBooks order.marketId := by
      unfold bookFor; rw [h2]
    unfold processOrder
    simp only [hb, set_same, and_self]
  · exact ⟨_, set_same _ _ _⟩
  · intro hnone
    have hb : bookFor orderBooks order.marketId = { bids := [], asks := [] } := by
      unfold bookFor; rw [hnone]
    have ht : isTaker order { bids := [], asks := [] } = false := by
      unfold isTaker; cases order.isLong <;> rfl
    unfold processOrder
    simp only [hb, ht, set_same, Bool.false_eq_true, if_false]
  · intro trades htrades tr htr
    by_cases hc : CrossesBestOpposite order (bookFor orderBooks order.marketId)
    · rw [processOrder_taker orderBooks order hc] at htrades
      simp only [handleTakerOrder_outcome, Option.some.injEq] at htrades
      subst htrades
      obtain ⟨_, _, _, _, hm⟩ := walkOf_trades_cross order _ tr htr
      exact hm
    · rw [processOrder_maker orderBooks order hc] at htrades
      simp [handleMakerOrder] at htrades

/-- C20. Every trade of `handleTakerOrder` is priced no worse than the taker's limit: at or
below `takerOrder.priceX18` when the taker buys, at or above it when the taker sells. -/
theorem handleTakerOrder_limit_price (takerOrder : Order) (book : Book)
    (trades : List Trade) (tr : Trade)
    (htrades : (handleTakerOrder takerOrder book).2.trades = some trades)
    (htr : tr ∈ trades) :
    (takerOrder.isLong = true → tr.price ≤ takerOrder.priceX18) ∧
    (takerOrder.isLong = false → tr.price ≥ takerOrder.priceX18) := by
  rw [handleTakerOrder_outcome] at htrades
  simp only [Option.some.injEq] at htrades
  subst htrades
  obtain ⟨m, _, hc, hp, _⟩ := walkOf_trades_cross takerOrder book tr htr
  rw [hp]
  unfold priceCrosses at hc
  constructor
  · intro hl
    simpa [hl] using hc
  · intro hl
    simpa [hl] using hc

/-- Scenario E: the second trade of the sell of 10 at 100 is priced 100, not below the
seller's limit of 100. -/
theorem handleTakerOrder_limit_price_witness :
    (handleTakerOrder sellE bookE).2.trades =
      some [{ marketId := "M", price := 100, size := 8, taker := "T", maker := "X" },
        { marketId := "M", price := 100, size := 2, taker := "T", maker := "Y" }] ∧
    (sellE.isLong = true → (100 : Nat) ≤ sellE.priceX18) ∧
    (sellE.isLong = false → (100 : Nat) ≥ sellE.priceX18) := by
  refine ⟨by rw [handleTakerOrder_bookE], ?_⟩
  exact handleTakerOrder_limit_price sellE bookE _
    { marketId := "M", price := 100, size := 2, taker := "T", maker := "Y" }
    (by rw [handleTakerOrder_bookE]) (by simp)

end OffchainEngine
